import Mathlib

/-!
# Verification of the techsence-workshop demo applications

Shallow embedding of the logic of the workshop's Python applications
(`app_3a_prime_checker.py`, `workshop_app.py`, `app_1d_security_dashboard.py`,
`app_1c_breach_checker.py`) together with theorems checking the repository
specification against the embedded code.

Conventions used throughout:
* Python floats that only ever hold dyadic/decimal values (question weights,
  polarity thresholds) are modelled as rationals `ℚ`.
* External capabilities (TextBlob's polarity score, `hashlib`'s SHA-1 digest,
  the network) are modelled as explicit inputs to the embedded functions.
* Fallible code paths (`try`/`except`) are modelled with `Option`.
-/

namespace Workshop

/-! ## Prime checker (`app_3a_prime_checker.py`) -/

namespace PrimeChecker

/-- The body of the loop `for i in range(2, int(math.sqrt(n)) + 1)` in
`is_prime`, including the explanation steps the app accumulates.  An early
`return False, steps` on `n % i == 0` becomes the first branch. -/
def trialDivision (n : Nat) : List Nat → Bool × List String
  | [] => (true, [s!"No divisors found. {n} is prime!"])
  | i :: rest =>
    if n % i == 0 then
      (false, [s!"Check if {n} is divisible by {i}", s!"{n} is divisible by {i} (not prime)"])
    else
      let r := trialDivision n rest
      (r.1, s!"Check if {n} is divisible by {i}" :: r.2)

/-- `is_prime` from `app_3a_prime_checker.py`.  `int(math.sqrt(n))` coincides
with `Nat.sqrt n` on the app's whole input domain (`number_input` restricts the
input to `2 ≤ n ≤ 100000`, where the float square root is exact enough), so the
loop range `range(2, int(math.sqrt(n)) + 1)` is `List.range' 2 (Nat.sqrt n + 1 - 2)`. -/
def is_prime (n : Nat) : Bool × List String :=
  if n < 2 then (false, [])
  else trialDivision n (List.range' 2 (Nat.sqrt n + 1 - 2))

theorem trialDivision_fst (n : Nat) (l : List Nat) :
    (trialDivision n l).1 = l.all (fun i => !(n % i == 0)) := by
  induction l with
  | nil => simp [trialDivision]
  | cons i rest ih =>
    by_cases h : n % i == 0
    · simp [trialDivision, h]
    · simp [trialDivision, h, ih]

/-- C10: for every integer `n` with `2 ≤ n ≤ 100000`, `is_prime n` returns
`true` exactly when `n` is prime, i.e. exactly when no integer in
`[2, Nat.sqrt n]` divides `n`; for every `n < 2` it returns `false`. -/
theorem is_prime_correct (n : Nat) :
    (2 ≤ n → n ≤ 100000 →
      (((is_prime n).1 = true ↔ Nat.Prime n) ∧
       ((is_prime n).1 = true ↔ ∀ m, 2 ≤ m → m ≤ Nat.sqrt n → ¬ m ∣ n))) ∧
    (n < 2 → (is_prime n).1 = false) := by
  constructor
  · intro h2 _
    have hsq : 1 ≤ Nat.sqrt n := Nat.sqrt_pos.mpr (by omega)
    have hsplit : (is_prime n).1
        = (List.range' 2 (Nat.sqrt n + 1 - 2)).all (fun i => !(n % i == 0)) := by
      rw [is_prime, if_neg (by omega), trialDivision_fst]
    have hiff : (is_prime n).1 = true ↔ ∀ m, 2 ≤ m → m ≤ Nat.sqrt n → ¬ m ∣ n := by
      rw [hsplit, List.all_eq_true]
      constructor
      · intro h m hm1 hm2
        have hmem : m ∈ List.range' 2 (Nat.sqrt n + 1 - 2) := by
          rw [List.mem_range'_1]
          omega
        have := h m hmem
        simp only [Bool.not_eq_true', beq_eq_false_iff_ne, ne_eq] at this
        rw [Nat.dvd_iff_mod_eq_zero]
        exact this
      · intro h m hmem
        rw [List.mem_range'_1] at hmem
        have := h m (by omega) (by omega)
        rw [Nat.dvd_iff_mod_eq_zero] at this
        simp only [Bool.not_eq_true', beq_eq_false_iff_ne, ne_eq]
        exact this
    refine ⟨?_, hiff⟩
    rw [hiff, Nat.prime_def_le_sqrt]
    constructor
    · intro h
      exact ⟨h2, h⟩
    · intro h
      exact h.2
  · intro h
    rw [is_prime, if_pos h]

theorem sqrt_97_eq : Nat.sqrt 97 = 9 := by
  have h1 : 9 ≤ Nat.sqrt 97 := Nat.le_sqrt.mpr (by norm_num)
  have h2 : Nat.sqrt 97 < 10 := Nat.sqrt_lt.mpr (by norm_num)
  omega

theorem is_prime_97 : (is_prime 97).1 = true := by
  have h : is_prime 97 = trialDivision 97 (List.range' 2 (Nat.sqrt 97 + 1 - 2)) := by
    simp [is_prime]
  rw [h, sqrt_97_eq]
  decide

/-- Witness for C10 at the concrete prime `97`. -/
theorem is_prime_correct_witness :
    ((2 ≤ 97 ∧ 97 ≤ 100000) ∧ (is_prime 97).1 = true) ∧ Nat.Prime 97 :=
  ⟨⟨⟨by norm_num, by norm_num⟩, is_prime_97⟩,
    ((is_prime_correct 97).1 (by norm_num) (by norm_num)).1.mp is_prime_97⟩

end PrimeChecker

/-! ## Sentiment / phishing analyzer (`workshop_app.py`) -/

namespace WorkshopApp

/-- The fixed phishing keyword list of `ai_check`. -/
def phishing_words : List String :=
  ["urgent", "click now", "verify account", "suspended",
   "limited time", "act now", "money", "free"]

/-- Python's `str.lower()`, character-wise (`Char.toLower` agrees with Python's
lower-casing on the ASCII texts involved). -/
def lowerStr (s : String) : String := ⟨s.data.map Char.toLower⟩

/-- `word.lower() in text.lower()`: case-insensitive substring occurrence. -/
def occursIn (word text : String) : Bool :=
  decide ((lowerStr word).data <:+: (lowerStr text).data)

/-- `sum(1 for word in phishing_words if word.lower() in text.lower())`. -/
def phishing_count (text : String) : Nat :=
  phishing_words.countP (fun w => occursIn w text)

/-- `ai_check` from `workshop_app.py`.  TextBlob's polarity score is an
external capability, passed in as the rational `polarity`; the float threshold
`0.05` is exactly `1/20`. -/
def ai_check (polarity : ℚ) (text : String) : String × String × ℚ :=
  let sentiment :=
    if 1/20 ≤ polarity then "😊 Positive"
    else if polarity ≤ -(1/20) then "😔 Negative"
    else "😐 Neutral"
  let security :=
    if 2 ≤ phishing_count text then "🚨 Possible Phishing"
    else if phishing_count text = 1 then "⚠️ Be Careful"
    else "✅ Looks Safe"
  (sentiment, security, polarity)

/-- C9: `ai_check` maps a polarity score in `[-1, 1]` to exactly one of three
sentiment buckets by the fixed thresholds `±1/20`, and assigns the phishing
verdict from the number of fixed keywords occurring case-insensitively in the
text: `0` matches is safe, exactly `1` is caution, `2` or more is
possible phishing. -/
theorem ai_check_correct (polarity : ℚ) (text : String)
    (hlo : -1 ≤ polarity) (hhi : polarity ≤ 1) :
    ((ai_check polarity text).1 = "😊 Positive" ↔ 1/20 ≤ polarity) ∧
    ((ai_check polarity text).1 = "😔 Negative" ↔ polarity ≤ -(1/20)) ∧
    ((ai_check polarity text).1 = "😐 Neutral" ↔ (-(1/20) < polarity ∧ polarity < 1/20)) ∧
    ((ai_check polarity text).2.1 = "✅ Looks Safe" ↔ phishing_count text = 0) ∧
    ((ai_check polarity text).2.1 = "⚠️ Be Careful" ↔ phishing_count text = 1) ∧
    ((ai_check polarity text).2.1 = "🚨 Possible Phishing" ↔ 2 ≤ phishing_count text) := by
  have e : ai_check polarity text =
      ((if 1/20 ≤ polarity then "😊 Positive"
        else if polarity ≤ -(1/20) then "😔 Negative" else "😐 Neutral"),
       (if 2 ≤ phishing_count text then "🚨 Possible Phishing"
        else if phishing_count text = 1 then "⚠️ Be Careful" else "✅ Looks Safe"),
       polarity) := rfl
  rw [e]
  refine ⟨?_, ?_, ?_, ?_, ?_, ?_⟩ <;> dsimp only <;> split_ifs with h h'
  · exact iff_of_true rfl h
  · exact iff_of_false (by decide) h
  · exact iff_of_false (by decide) h
  · exact iff_of_false (by decide) (by intro hc; linarith)
  · exact iff_of_true rfl h'
  · exact iff_of_false (by decide) h'
  · exact iff_of_false (by decide) (by intro hc; linarith [hc.2])
  · exact iff_of_false (by decide) (by intro hc; linarith [hc.1])
  · exact iff_of_true rfl ⟨by linarith, by linarith⟩
  · exact iff_of_false (by decide) (by omega)
  · exact iff_of_false (by decide) (by omega)
  · exact iff_of_true rfl (by omega)
  · exact iff_of_false (by decide) (by omega)
  · exact iff_of_true rfl h'
  · exact iff_of_false (by decide) (by omega)
  · exact iff_of_true rfl h
  · exact iff_of_false (by decide) (by omega)
  · exact iff_of_false (by decide) (by omega)

/-- Witness for C9: a positive text containing three phishing keywords. -/
theorem ai_check_correct_witness :
    ((-1 : ℚ) ≤ 1/2 ∧ (1/2 : ℚ) ≤ 1) ∧
    (ai_check (1/2) "Urgent: claim your FREE money now").1 = "😊 Positive" ∧
    (ai_check (1/2) "Urgent: claim your FREE money now").2.1 = "🚨 Possible Phishing" := by
  refine ⟨⟨by norm_num, by norm_num⟩, ?_, ?_⟩
  · exact (ai_check_correct (1/2) _ (by norm_num) (by norm_num)).1.mpr (by norm_num)
  · exact (ai_check_correct (1/2) _ (by norm_num) (by norm_num)).2.2.2.2.2.mpr (by decide)

end WorkshopApp

/-! ## Security dashboard (`app_1d_security_dashboard.py`) -/

namespace Dashboard

/-- One assessment question (static configuration in the dashboard source). -/
structure Question where
  id : String
  question : String
  weight : ℚ
  category : String
deriving DecidableEq

/-- The dashboard's fixed question list. -/
def questions : List Question :=
  [⟨"unique_passwords",
    "Do you use unique passwords for each important account?", 20, "Password Security"⟩,
   ⟨"password_manager",
    "Do you use a password manager?", 15, "Password Security"⟩,
   ⟨"two_factor_auth",
    "Do you have 2FA enabled on important accounts (email, banking, social media)?", 20,
    "Account Security"⟩,
   ⟨"software_updates",
    "Do you keep your software and operating system updated?", 15, "System Security"⟩,
   ⟨"antivirus",
    "Do you have antivirus software installed and updated?", 10, "System Security"⟩,
   ⟨"secure_browsing",
    "Do you avoid clicking suspicious links and downloading unknown files?", 10,
    "Browsing Security"⟩,
   ⟨"wifi_security",
    "Do you avoid using public WiFi for sensitive activities?", 5, "Network Security"⟩,
   ⟨"backup_strategy",
    "Do you have a regular backup strategy for important data?", 5, "Data Protection"⟩]

/-- The per-question scoring branch of the assessment loop:
`weight` for `"Yes"`, `weight * 0.5` for `"Partially"`, else `0`.
Responses are kept as strings, exactly as the code compares them. -/
def scoreResponse (response : String) (weight : ℚ) : ℚ :=
  if response = "Yes" then weight
  else if response = "Partially" then weight * (1/2)
  else 0

/-- The `category_scores` dictionary: a key-ordered association list of
`category ↦ (score, max)`. -/
abbrev CatScores := List (String × ℚ × ℚ)

/-- Insertion-ordered dictionary lookup, `d[c]` / `c in d`. -/
def lookupCat : CatScores → String → Option (ℚ × ℚ)
  | [], _ => none
  | p :: t, c => if p.1 = c then some p.2 else lookupCat t c

/-- The category-tracking step of the loop: insert `{"score": 0, "max": 0}`
if the category is absent (appending the key at the end, as a Python dict
does), then add the question's score and weight to the entry in place. -/
def addCat : CatScores → String → ℚ → ℚ → CatScores
  | [], c, s, w => [(c, s, w)]
  | p :: t, c, s, w =>
    if p.1 = c then (p.1, p.2.1 + s, p.2.2 + w) :: t
    else p :: addCat t c s w

/-- The assessment loop of `Calculate Security Score`: accumulate
`total_score` and the `category_scores` dictionary over the questions,
given the `responses` mapping (question id → radio answer). -/
def assessFold (resp : String → String) (qs : List Question) : ℚ × CatScores :=
  qs.foldl
    (fun acc q =>
      let score := scoreResponse (resp q.id) q.weight
      (acc.1 + score, addCat acc.2 q.category score q.weight))
    (0, [])

/-- `max_score = sum(q["weight"] for q in questions)`. -/
def max_score (qs : List Question) : ℚ := (qs.map (·.weight)).sum

/-- `percentage_score = (total_score / max_score) * 100`. -/
def percentage_score (resp : String → String) : ℚ :=
  ((assessFold resp questions).1 / max_score questions) * 100

/-- Sum of scores of the questions of category `c`. -/
def catScoreSum (resp : String → String) (c : String) (qs : List Question) : ℚ :=
  ((qs.filter (fun q => q.category = c)).map (fun q => scoreResponse (resp q.id) q.weight)).sum

/-- Sum of weights of the questions of category `c`. -/
def catWeightSum (c : String) (qs : List Question) : ℚ :=
  ((qs.filter (fun q => q.category = c)).map (·.weight)).sum

theorem lookupCat_addCat (d : CatScores) (c c' : String) (s w : ℚ) :
    lookupCat (addCat d c s w) c' =
      if c' = c then
        some (((lookupCat d c).getD (0, 0)).1 + s, ((lookupCat d c).getD (0, 0)).2 + w)
      else lookupCat d c' := by
  induction d with
  | nil =>
    by_cases h : c' = c
    · simp [addCat, lookupCat, h]
    · simp [addCat, lookupCat, h, show ¬ c = c' from fun hh => h hh.symm]
  | cons p t ih =>
    by_cases hkc : p.1 = c
    · by_cases h : c' = c
      · subst h
        simp [addCat, lookupCat, hkc]
      · have hpc : ¬ p.1 = c' := by
          rw [hkc]; exact fun hh => h hh.symm
        simp [addCat, lookupCat, hkc, hpc, h, show ¬ c = c' from hkc ▸ hpc]
    · by_cases h : c' = c
      · subst h
        have hpc : ¬ p.1 = c' := hkc
        simp [addCat, lookupCat, hkc, hpc, ih]
      · by_cases hpk : p.1 = c'
        · simp [addCat, lookupCat, hkc, hpk, h]
        · simp [addCat, lookupCat, hkc, hpk, h, ih]

theorem catScoreSum_cons (resp : String → String) (c : String) (q : Question)
    (rest : List Question) :
    catScoreSum resp c (q :: rest) =
      (if q.category = c then scoreResponse (resp q.id) q.weight else 0)
        + catScoreSum resp c rest := by
  by_cases h : q.category = c <;> simp [catScoreSum, List.filter_cons, h]

theorem catWeightSum_cons (c : String) (q : Question) (rest : List Question) :
    catWeightSum c (q :: rest) =
      (if q.category = c then q.weight else 0) + catWeightSum c rest := by
  by_cases h : q.category = c <;> simp [catWeightSum, List.filter_cons, h]

/-- The first component of the assessment fold is the running total score. -/
theorem assessFold_total (resp : String → String) (qs : List Question) :
    ∀ (t : ℚ) (d : CatScores),
      (qs.foldl
        (fun acc q =>
          let score := scoreResponse (resp q.id) q.weight
          (acc.1 + score, addCat acc.2 q.category score q.weight)) (t, d)).1
        = t + (qs.map (fun q => scoreResponse (resp q.id) q.weight)).sum := by
  induction qs with
  | nil => intro t d; simp
  | cons q rest ih =>
    intro t d
    simp only [List.foldl_cons, List.map_cons, List.sum_cons]
    rw [ih]
    ring

/-- The second component of the assessment fold, characterized through
dictionary lookup: each tracked category accumulates the scores and weights
of its questions. -/
theorem assessFold_lookup (resp : String → String) (qs : List Question) :
    ∀ (t : ℚ) (d : CatScores) (c : String),
      lookupCat
        ((qs.foldl
          (fun acc q =>
            let score := scoreResponse (resp q.id) q.weight
            (acc.1 + score, addCat acc.2 q.category score q.weight)) (t, d)).2) c
        = match lookupCat d c with
          | some p => some (p.1 + catScoreSum resp c qs, p.2 + catWeightSum c qs)
          | none =>
            if qs.any (fun q => q.category = c) then
              some (catScoreSum resp c qs, catWeightSum c qs)
            else none := by
  induction qs with
  | nil =>
    intro t d c
    cases hl : lookupCat d c <;>
      simp [hl, catScoreSum, catWeightSum]
  | cons q rest ih =>
    intro t d c
    simp only [List.foldl_cons]
    rw [ih]
    rw [lookupCat_addCat]
    by_cases hqc : q.category = c
    · subst hqc
      rw [if_pos rfl]
      cases hl : lookupCat d q.category with
      | none =>
        simp only [hl, Option.getD_none]
        rw [catScoreSum_cons, catWeightSum_cons, if_pos rfl, if_pos rfl]
        simp
      | some p =>
        simp only [hl, Option.getD_some]
        rw [catScoreSum_cons, catWeightSum_cons, if_pos rfl, if_pos rfl]
        ring_nf
    · rw [if_neg (fun hh => hqc hh.symm)]
      cases hl : lookupCat d c with
      | none =>
        simp only [hl]
        rw [catScoreSum_cons, catWeightSum_cons, if_neg hqc, if_neg hqc]
        simp only [List.any_cons, hqc, decide_eq_true_eq, zero_add]
        simp [hqc]
      | some p =>
        simp only [hl]
        rw [catScoreSum_cons, catWeightSum_cons, if_neg hqc, if_neg hqc]
        simp

/-- C1: for every response mapping assigning each fixed question an answer in
`{Yes, Partially, No}`, the engine scores a question as its full weight for
`Yes`, half its weight for `Partially` and `0` for `No`, computes
`percentage_score = 100 * (Σ score) / (Σ weight)`, and `category_scores`
assigns each question category the sum of the scores and the sum of the
weights of its questions. -/
theorem assessment_scoring_correct (resp : String → String)
    (hresp : ∀ q ∈ questions,
      resp q.id = "Yes" ∨ resp q.id = "Partially" ∨ resp q.id = "No") :
    (∀ w : ℚ, scoreResponse "Yes" w = w ∧ scoreResponse "Partially" w = w / 2 ∧
      scoreResponse "No" w = 0) ∧
    percentage_score resp =
      100 * ((questions.map (fun q => scoreResponse (resp q.id) q.weight)).sum)
        / ((questions.map (·.weight)).sum) ∧
    (∀ c ∈ questions.map (·.category),
      lookupCat (assessFold resp questions).2 c
        = some (catScoreSum resp c questions, catWeightSum c questions)) := by
  refine ⟨?_, ?_, ?_⟩
  · intro w
    refine ⟨by simp [scoreResponse], ?_, by simp [scoreResponse]⟩
    simp [scoreResponse]
    ring
  · rw [percentage_score, assessFold, assessFold_total, max_score]
    ring
  · intro c hc
    rw [assessFold, assessFold_lookup]
    simp only [lookupCat]
    have hany : questions.any (fun q => q.category = c) = true := by
      simp only [List.mem_map] at hc
      obtain ⟨q, hq, hqc⟩ := hc
      exact List.any_eq_true.mpr ⟨q, hq, by simp [hqc]⟩
    rw [if_pos hany]

/-- Witness for C1: the all-`Partially` response mapping scores `50%`, and
`Password Security` accumulates its two questions. -/
theorem assessment_scoring_correct_witness :
    (∀ q ∈ questions, (fun _ => "Partially") q.id = "Yes" ∨
      (fun _ => "Partially") q.id = "Partially" ∨ (fun _ => "Partially") q.id = "No") ∧
    percentage_score (fun _ => "Partially") =
      100 * ((questions.map
        (fun q => scoreResponse ((fun _ => "Partially") q.id) q.weight)).sum)
        / ((questions.map (·.weight)).sum) ∧
    lookupCat (assessFold (fun _ => "Partially") questions).2 "Password Security"
      = some (catScoreSum (fun _ => "Partially") "Password Security" questions,
              catWeightSum "Password Security" questions) := by
  have h := assessment_scoring_correct (fun _ => "Partially")
    (fun q _ => Or.inr (Or.inl rfl))
  exact ⟨fun q _ => Or.inr (Or.inl rfl), h.2.1,
    h.2.2 "Password Security" (by decide)⟩

/-- C8 counterexample: the scoring branch maps the out-of-enumeration answer
`"Maybe"` to the score `0`, exactly as it maps `"No"` — nothing in the scoring
computation rejects it. -/
theorem scoreResponse_defaults_counterexample :
    scoreResponse "Maybe" 20 = 0 ∧ scoreResponse "No" 20 = 0 := by
  constructor <;> simp [scoreResponse]

/-- C8 (amended): answers outside `{Yes, Partially, No}` are kept out only by
the radio widget's fixed options; the scoring computation itself does not
reject them — it maps every answer other than `Yes` and `Partially`,
including out-of-enumeration values, to a score of `0`, identically to `No`. -/
theorem scoreResponse_defaults (s : String) (w : ℚ)
    (h1 : s ≠ "Yes") (h2 : s ≠ "Partially") :
    scoreResponse s w = 0 ∧ scoreResponse s w = scoreResponse "No" w := by
  have : scoreResponse s w = 0 := by simp [scoreResponse, h1, h2]
  exact ⟨this, by rw [this]; simp [scoreResponse]⟩

/-- Witness for the amended C8 at the out-of-enumeration answer `"Banana"`. -/
theorem scoreResponse_defaults_witness :
    ("Banana" ≠ "Yes" ∧ "Banana" ≠ "Partially") ∧
    scoreResponse "Banana" 7 = 0 ∧ scoreResponse "Banana" 7 = scoreResponse "No" 7 :=
  ⟨⟨by decide, by decide⟩, scoreResponse_defaults "Banana" 7 (by decide) (by decide)⟩

/-! ### Goal tracker -/

/-- A goal record, as created by the `Create Goal` button. -/
structure Goal where
  id : Nat
  title : String
  description : String
  category : String
  deadline : String
  priority : String
  created_date : String
  completed : Bool
  progress : Nat
deriving DecidableEq

/-- The user-supplied fields of a new goal (`created_date` stands for the
external `datetime.now().isoformat()`). -/
structure GoalInput where
  title : String
  description : String
  category : String
  deadline : String
  priority : String
  created_date : String
deriving DecidableEq

/-- The `Create Goal` action: guarded by `and goal_title` (the empty string is
the only falsy string), it appends a goal with `id = len(goals)`,
`completed = False` and `progress = 0`. -/
def createGoal (goals : List Goal) (inp : GoalInput) : List Goal :=
  if inp.title = "" then goals
  else goals ++ [⟨goals.length, inp.title, inp.description, inp.category,
                 inp.deadline, inp.priority, inp.created_date, false, 0⟩]

/-- A sequence of `Create Goal` actions. -/
def createGoals (goals : List Goal) (inps : List GoalInput) : List Goal :=
  inps.foldl createGoal goals

/-- The progress-slider update on one goal record (lines 260–263 of the
dashboard): only when the slider value differs from the stored progress is the
progress written, and `completed` is set when the new value reaches `100`. -/
def updateGoalRecord (g : Goal) (p : Nat) : Goal :=
  if p ≠ g.progress then
    { g with progress := p, completed := if 100 ≤ p then true else g.completed }
  else g

/-- `update_progress(id, new_progress)`: apply the slider update to the goal
with the given id (the spec's §4.2 operation; in the app the slider is keyed
by `goal['id']`). -/
def update_progress (goals : List Goal) (id : Nat) (p : Nat) : List Goal :=
  goals.map (fun g => if g.id = id then updateGoalRecord g p else g)

/-- The `Complete` button: forces `completed = True, progress = 100`. -/
def completeGoal (goals : List Goal) (id : Nat) : List Goal :=
  goals.map (fun g => if g.id = id then { g with completed := true, progress := 100 } else g)

/-- Goal lists reachable through the tracker's exposed operations, starting
from the empty list. -/
inductive Reachable : List Goal → Prop where
  | empty : Reachable []
  | create (goals : List Goal) (inp : GoalInput) :
      Reachable goals → Reachable (createGoal goals inp)
  | update (goals : List Goal) (id p : Nat) :
      Reachable goals → Reachable (update_progress goals id p)
  | complete (goals : List Goal) (id : Nat) :
      Reachable goals → Reachable (completeGoal goals id)

/-- Finding a goal by id. -/
def lookupGoal (goals : List Goal) (id : Nat) : Option Goal :=
  goals.find? (fun g => g.id = id)

theorem updateGoalRecord_id (g : Goal) (p : Nat) :
    (updateGoalRecord g p).id = g.id := by
  rw [updateGoalRecord]
  split <;> rfl

/-- Every reachable goal list satisfies the invariant
`100 ≤ progress → completed`. -/
theorem reachable_invariant (goals : List Goal) (h : Reachable goals) :
    ∀ g ∈ goals, 100 ≤ g.progress → g.completed = true := by
  induction h with
  | empty => intro g hg; simp at hg
  | create gs inp _ ih =>
    intro g hg hp
    rw [createGoal] at hg
    split at hg
    · exact ih g hg hp
    · rw [List.mem_append] at hg
      rcases hg with hg | hg
      · exact ih g hg hp
      · simp at hg
        subst hg
        simp at hp
  | update gs id p _ ih =>
    intro g hg hp
    rw [update_progress, List.mem_map] at hg
    obtain ⟨g0, hg0, hEq⟩ := hg
    by_cases hid : g0.id = id
    · rw [if_pos hid] at hEq
      subst hEq
      rw [updateGoalRecord] at hp ⊢
      by_cases hne : p ≠ g0.progress
      · rw [if_pos hne] at hp ⊢
        have hp' : 100 ≤ p := hp
        show (if 100 ≤ p then true else g0.completed) = true
        rw [if_pos hp']
      · rw [if_neg hne] at hp ⊢
        exact ih g0 hg0 hp
    · rw [if_neg hid] at hEq
      subst hEq
      exact ih g0 hg0 hp
  | complete gs id _ ih =>
    intro g hg hp
    rw [completeGoal, List.mem_map] at hg
    obtain ⟨g0, hg0, hEq⟩ := hg
    by_cases hid : g0.id = id
    · rw [if_pos hid] at hEq
      subst hEq
      rfl
    · rw [if_neg hid] at hEq
      subst hEq
      exact ih g0 hg0 hp

theorem lookupGoal_update_progress (goals : List Goal) (id p : Nat) :
    lookupGoal (update_progress goals id p) id
      = (lookupGoal goals id).map (fun g => updateGoalRecord g p) := by
  induction goals with
  | nil => rfl
  | cons g rest ih =>
    by_cases hid : g.id = id
    · simp only [lookupGoal, update_progress, List.map_cons, List.find?_cons, if_pos hid]
      rw [updateGoalRecord_id]
      simp [hid]
    · simp only [lookupGoal, update_progress, List.map_cons, List.find?_cons, if_neg hid]
      simp only [hid, decide_eq_true_eq, if_neg]
      simpa [lookupGoal, update_progress, hid] using ih

theorem update_progress_not_found (goals : List Goal) (id p : Nat)
    (h : lookupGoal goals id = none) : update_progress goals id p = goals := by
  rw [lookupGoal, List.find?_eq_none] at h
  rw [update_progress]
  have hcongr : ∀ g ∈ goals,
      (if g.id = id then updateGoalRecord g p else g) = g := by
    intro g hg
    have hne := h g hg
    simp only [decide_eq_true_eq] at hne
    rw [if_neg hne]
  rw [List.map_congr_left hcongr]
  simp

/-- C3: on every reachable goal list, `update_progress id p` sets the looked-up
goal's progress to `p` and, whenever `100 ≤ p`, its completed flag to `true`;
if no goal has the id, the goal list is unchanged. -/
theorem update_progress_correct (goals : List Goal) (h : Reachable goals)
    (id p : Nat) :
    (∀ g, lookupGoal goals id = some g →
      ∃ g', lookupGoal (update_progress goals id p) id = some g' ∧
        g'.progress = p ∧ (100 ≤ p → g'.completed = true)) ∧
    (lookupGoal goals id = none → update_progress goals id p = goals) := by
  constructor
  · intro g hg
    refine ⟨updateGoalRecord g p, ?_, ?_, ?_⟩
    · rw [lookupGoal_update_progress, hg]
      rfl
    · rw [updateGoalRecord]
      by_cases hne : p ≠ g.progress
      · rw [if_pos hne]
      · rw [if_neg hne]
        push_neg at hne
        exact hne.symm
    · intro hp
      rw [updateGoalRecord]
      by_cases hne : p ≠ g.progress
      · rw [if_pos hne]
        show (if 100 ≤ p then true else g.completed) = true
        rw [if_pos hp]
      · rw [if_neg hne]
        push_neg at hne
        have hmem : g ∈ goals := List.mem_of_find?_eq_some hg
        exact reachable_invariant goals h g hmem (hne ▸ hp)
  · exact update_progress_not_found goals id p

/-- A concrete goal creation used to witness C3. -/
def demoInput : GoalInput :=
  ⟨"Enable 2FA", "Activate two-factor authentication", "Account Security",
   "2025-01-01", "High", "2024-12-01T00:00:00"⟩

def demoGoals : List Goal := createGoal [] demoInput

theorem demoGoals_reachable : Reachable demoGoals :=
  Reachable.create [] demoInput Reachable.empty

/-- Witness for C3: updating the freshly created goal `0` to progress `100`
completes it. -/
theorem update_progress_correct_witness :
    ∃ g', lookupGoal (update_progress demoGoals 0 100) 0 = some g' ∧
      g'.progress = 100 ∧ (100 ≤ 100 → g'.completed = true) :=
  (update_progress_correct demoGoals demoGoals_reachable 0 100).1
    ⟨0, "Enable 2FA", "Activate two-factor authentication", "Account Security",
     "2025-01-01", "High", "2024-12-01T00:00:00", false, 0⟩
    (by decide)

theorem createGoals_invariant (inps : List GoalInput) :
    ∀ goals : List Goal,
      (∀ (j : Nat) (g : Goal), goals.get? j = some g → g.id = j) →
      (∀ i ∈ inps, i.title ≠ "") →
      (createGoals goals inps).length = goals.length + inps.length ∧
      ∀ (j : Nat) (g : Goal), (createGoals goals inps).get? j = some g → g.id = j := by
  induction inps with
  | nil =>
    intro goals hg _
    exact ⟨by simp [createGoals], hg⟩
  | cons i rest ih =>
    intro goals hg hne
    have hni : i.title ≠ "" := hne i (List.mem_cons_self i rest)
    have hstep : createGoal goals i
        = goals ++ [⟨goals.length, i.title, i.description, i.category,
                     i.deadline, i.priority, i.created_date, false, 0⟩] := by
      rw [createGoal, if_neg hni]
    have hg' : ∀ (j : Nat) (g : Goal), (createGoal goals i).get? j = some g → g.id = j := by
      intro j g hj
      rw [hstep] at hj
      rcases Nat.lt_or_ge j goals.length with hlt | hge
      · rw [List.get?_append hlt] at hj
        exact hg j g hj
      · rw [List.get?_append_right hge] at hj
        have hjlt : j - goals.length < 1 := by
          have := List.get?_eq_some.mp hj
          simpa using this.1
        have hj0 : j - goals.length = 0 := by omega
        rw [hj0] at hj
        simp only [List.get?] at hj
        have hgeq := Option.some.inj hj
        have hid : g.id = goals.length := by rw [← hgeq]
        omega
    have hlen : (createGoal goals i).length = goals.length + 1 := by
      rw [hstep]
      simp
    have hrec := ih (createGoal goals i) hg'
      (fun x hx => hne x (List.mem_cons_of_mem i hx))
    constructor
    · have := hrec.1
      rw [hlen] at this
      simp only [createGoals, List.foldl_cons] at this ⊢
      rw [this, List.length_cons]
      omega
    · intro j g hj
      simp only [createGoals, List.foldl_cons] at hj
      exact hrec.2 j g (by simpa [createGoals] using hj)

/-- C2: creating a goal with a non-empty title appends exactly one goal with
`progress = 0`, `completed = false` and `id = len(goals)`; an empty title
creates no goal; and from the empty list, `N` successful creations yield `N`
goals whose ids equal their creation index. -/
theorem goal_creation_correct :
    (∀ (goals : List Goal) (inp : GoalInput), inp.title ≠ "" →
      createGoal goals inp = goals ++
        [⟨goals.length, inp.title, inp.description, inp.category, inp.deadline,
          inp.priority, inp.created_date, false, 0⟩]) ∧
    (∀ (goals : List Goal) (inp : GoalInput), inp.title = "" →
      createGoal goals inp = goals) ∧
    (∀ inps : List GoalInput, (∀ i ∈ inps, i.title ≠ "") →
      (createGoals [] inps).length = inps.length ∧
      ∀ (j : Nat) (g : Goal), (createGoals [] inps).get? j = some g → g.id = j) := by
  refine ⟨?_, ?_, ?_⟩
  · intro goals inp hne
    rw [createGoal, if_neg hne]
  · intro goals inp he
    rw [createGoal, if_pos he]
  · intro inps hne
    have := createGoals_invariant inps [] (by intro j g hj; simp at hj) hne
    simpa using this

/-- Witness for C2: two successful creations from the empty list give two
goals with ids `0` and `1`. -/
theorem goal_creation_correct_witness :
    (createGoals []
      [⟨"Use a password manager", "", "Password Security", "2025-02-01", "Medium", "t0"⟩,
       ⟨"Set up backups", "", "Data Protection", "2025-03-01", "Low", "t1"⟩]).length = 2 ∧
    ∀ (j : Nat) (g : Goal),
      (createGoals []
        [⟨"Use a password manager", "", "Password Security", "2025-02-01", "Medium", "t0"⟩,
         ⟨"Set up backups", "", "Data Protection", "2025-03-01", "Low", "t1"⟩]).get? j
        = some g → g.id = j :=
  goal_creation_correct.2.2
    [⟨"Use a password manager", "", "Password Security", "2025-02-01", "Medium", "t0"⟩,
     ⟨"Set up backups", "", "Data Protection", "2025-03-01", "Low", "t1"⟩]
    (by decide)

end Dashboard

/-! ## Breach checker (`app_1c_breach_checker.py`) -/

namespace BreachChecker

/-- Numeric value of a decimal digit character. -/
def digitVal (c : Char) : Nat := c.toNat - 48

/-- Value of a decimal digit string, `int(count)` on the digit strings the
hash-range API returns. -/
def digitsToNat (l : List Char) : Nat := l.foldl (fun a c => a * 10 + digitVal c) 0

/-- `int(count)`: succeeds on non-empty all-digit strings; anything else is
modelled as the `ValueError` path (`none`). -/
def parseCount (l : List Char) : Option Nat :=
  if l ≠ [] ∧ l.all Char.isDigit then some (digitsToNat l) else none

/-- Python's `str.split(':')`. -/
def splitOnColon : List Char → List (List Char)
  | [] => [[]]
  | c :: rest =>
    match splitOnColon rest with
    | [] => [[]]
    | h :: t => if c = ':' then [] :: h :: t else (c :: h) :: t

/-- `hash_suffix, count = hash_line.split(':')` followed by `int(count)`:
exactly two fields or the unpacking/`int` raises (modelled as `none`). -/
def parseLine (line : String) : Option (String × Nat) :=
  match splitOnColon line.data with
  | [h, c] => (parseCount c).map (fun n => (⟨h⟩, n))
  | _ => none

/-- The matching loop over the response lines (`for hash_line in hashes`),
with its early `break` on the first matching suffix.  A line that fails to
split/parse before a match is found raises (`none`); the loop result is
`(found, breach_count)`. -/
def scanHashes (suffix : String) : List String → Option (Bool × Nat)
  | [] => some (false, 0)
  | line :: rest =>
    match parseLine line with
    | none => none
    | some (h, c) => if h = suffix then some (true, c) else scanHashes suffix rest

/-- The single-password check (lines 46–64): given the uppercase SHA-1 hex
digest of the password (computed by `hashlib`, an external capability) and the
`splitlines()` of a 200 response body, compare each line's suffix against the
final 35 digest characters (`sha1_hash[5:]`; `sha1_hash[:5]` is what the
request carried). -/
def singleCheck (sha1_hash : String) (lines : List String) : Option (Bool × Nat) :=
  scanHashes (sha1_hash.drop 5) lines

/-- The well-formed response line `suffix ++ ":" ++ count`. -/
def lineOf (p : String × List Char) : String := p.1 ++ ":" ++ ⟨p.2⟩

theorem splitOnColon_ne_nil (l : List Char) : splitOnColon l ≠ [] := by
  cases l with
  | nil => simp [splitOnColon]
  | cons c rest =>
    rw [splitOnColon]
    cases splitOnColon rest with
    | nil => simp
    | cons hh tt =>
      by_cases hc : c = ':' <;> simp [hc]

theorem splitOnColon_no_colon (l : List Char) (h : ':' ∉ l) :
    splitOnColon l = [l] := by
  induction l with
  | nil => rfl
  | cons c rest ih =>
    have hc : ¬ c = ':' := fun hh => h (hh ▸ List.mem_cons_self c rest)
    have hr : ':' ∉ rest := fun hh => h (List.mem_cons_of_mem c hh)
    rw [splitOnColon, ih hr]
    simp [hc]

theorem splitOnColon_append (a b : List Char) (h : ':' ∉ a) :
    splitOnColon (a ++ ':' :: b) =
      a :: (splitOnColon b).headD [] :: (splitOnColon b).tail := by
  induction a with
  | nil =>
    rw [List.nil_append, splitOnColon]
    cases hsb : splitOnColon b with
    | nil => exact absurd hsb (splitOnColon_ne_nil b)
    | cons hh tt => simp
  | cons c rest ih =>
    have hc : ¬ c = ':' := fun hh => h (hh ▸ List.mem_cons_self c rest)
    have hr : ':' ∉ rest := fun hh => h (List.mem_cons_of_mem c hh)
    rw [List.cons_append, splitOnColon, ih hr]
    simp [hc]

theorem parseLine_lineOf (p : String × List Char)
    (hnc : ':' ∉ p.1.data) (hne : p.2 ≠ []) (hdig : p.2.all Char.isDigit) :
    parseLine (lineOf p) = some (p.1, digitsToNat p.2) := by
  have hdata : (lineOf p).data = p.1.data ++ ':' :: p.2 := by
    simp [lineOf]
  have hnc2 : ':' ∉ p.2 := by
    intro hmem
    have hall := List.all_eq_true.mp hdig
    have := hall ':' hmem
    simp at this
  rw [parseLine, hdata, splitOnColon_append p.1.data p.2 hnc,
      splitOnColon_no_colon p.2 hnc2]
  simp [parseCount, hne, hdig]

/-- Well-formed `suffix:count` response entries: a colon-free suffix and a
non-empty decimal count. -/
def WfPair (p : String × List Char) : Prop :=
  ':' ∉ p.1.data ∧ p.2 ≠ [] ∧ p.2.all Char.isDigit

instance (p : String × List Char) : Decidable (WfPair p) := by
  unfold WfPair
  infer_instance

/-- C6: for every candidate password digest and every API response made of
newline-delimited `suffix:count` lines for its first 5 hex characters, a line
whose suffix equals the remaining 35 digest characters yields
`found = true` with that line's count, and no matching line yields
`found = false`. -/
theorem single_check_correct (sha1_hash : String) (pairs : List (String × List Char))
    (hlen : sha1_hash.length = 40)
    (hwf : ∀ p ∈ pairs, WfPair p)
    (hnodup : (pairs.map Prod.fst).Nodup) :
    (∀ ds, (sha1_hash.drop 5, ds) ∈ pairs →
      singleCheck sha1_hash (pairs.map lineOf) = some (true, digitsToNat ds)) ∧
    (sha1_hash.drop 5 ∉ pairs.map Prod.fst →
      singleCheck sha1_hash (pairs.map lineOf) = some (false, 0)) := by
  rw [singleCheck]
  induction pairs with
  | nil =>
    constructor
    · intro ds hds
      simp at hds
    · intro
      rfl
  | cons p rest ih =>
    obtain ⟨hwf1, hwfrest⟩ : WfPair p ∧ ∀ q ∈ rest, WfPair q :=
      ⟨hwf p (List.mem_cons_self p rest),
       fun q hq => hwf q (List.mem_cons_of_mem p hq)⟩
    have hndrest : (rest.map Prod.fst).Nodup := (List.nodup_cons.mp hnodup).2
    have hnmem : p.1 ∉ rest.map Prod.fst := (List.nodup_cons.mp hnodup).1
    have hscan : scanHashes (sha1_hash.drop 5) ((p :: rest).map lineOf)
        = if p.1 = sha1_hash.drop 5 then some (true, digitsToNat p.2)
          else scanHashes (sha1_hash.drop 5) (rest.map lineOf) := by
      rw [List.map_cons, scanHashes,
          parseLine_lineOf p hwf1.1 hwf1.2.1 hwf1.2.2]
    have ihr := ih hwfrest hndrest
    constructor
    · intro ds hds
      rcases List.mem_cons.mp hds with hhead | htail
      · have hp1 : p.1 = sha1_hash.drop 5 := by rw [← hhead]
        have hp2 : p.2 = ds := by rw [← hhead]
        rw [hscan, if_pos hp1, hp2]
      · have hp1 : ¬ p.1 = sha1_hash.drop 5 := by
          intro hh
          exact hnmem (hh ▸ List.mem_map_of_mem Prod.fst htail)
        rw [hscan, if_neg hp1]
        exact ihr.1 ds htail
    · intro hno
      have hp1 : ¬ p.1 = sha1_hash.drop 5 := by
        intro hh
        exact hno (hh ▸ List.mem_map_of_mem Prod.fst (List.mem_cons_self p rest))
      rw [hscan, if_neg hp1]
      exact ihr.2 (fun hh => hno (List.mem_cons_of_mem _ hh))

/-- Witness for C6 at a concrete digest and two-line response. -/
theorem single_check_correct_witness :
    ("00000AAAAAAAAAAAAAAAAAAAAAAAAAAAAAAAAAAA" : String).length = 40 ∧
    singleCheck "00000AAAAAAAAAAAAAAAAAAAAAAAAAAAAAAAAAAA"
      ([("BBBBBBBBBBBBBBBBBBBBBBBBBBBBBBBBBBB", ['7']),
        ("AAAAAAAAAAAAAAAAAAAAAAAAAAAAAAAAAAA", ['4', '2'])].map lineOf)
      = some (true, 42) := by
  have h := (single_check_correct "00000AAAAAAAAAAAAAAAAAAAAAAAAAAAAAAAAAAA"
    [("BBBBBBBBBBBBBBBBBBBBBBBBBBBBBBBBBBB", ['7']),
     ("AAAAAAAAAAAAAAAAAAAAAAAAAAAAAAAAAAA", ['4', '2'])]
    (by decide) (by decide) (by decide)).1 ['4', '2'] (by decide)
  refine ⟨by decide, ?_⟩
  rw [h]
  decide

/-! ### Batch mode (lines 141–185) -/

/-- What the network did for one password's `requests.get`: an exception, or a
response with a status code and a body (already split into lines). -/
inductive NetOutcome where
  | exc : NetOutcome
  | resp (status : Nat) (lines : List String) : NetOutcome
deriving DecidableEq

/-- The Python `breached` field is `False`, `True` or the string `'Error'`.
`not r['breached']` is true exactly for `False`; `r['breached'] and
r['breached'] != 'Error'` is true exactly for `True` (a non-empty string is
truthy); `r['breached'] == 'Error'` is true exactly for `'Error'`. -/
inductive BreachedFlag where
  | no : BreachedFlag
  | yes : BreachedFlag
  | err : BreachedFlag
deriving DecidableEq

/-- One entry of the batch `results` list. -/
structure BatchEntry where
  password : String
  breached : BreachedFlag
  count : Nat
deriving DecidableEq

/-- `password[:3] + '*' * (len(password) - 3)`. -/
def maskPassword (p : String) : String :=
  p.take 3 ++ ⟨List.replicate (p.length - 3) '*'⟩

/-- One password of the batch: its text, its uppercase SHA-1 hex digest
(computed by `hashlib`, external) and the network outcome of its request. -/
structure BatchInput where
  password : String
  sha1_hash : String
  outcome : NetOutcome
deriving DecidableEq

/-- One iteration of the batch loop.  An exception anywhere in the `try`
block (including a line that fails to split or parse) appends the `'Error'`
sentinel entry; a 200 response whose scan completes appends a result entry;
a response with any other status appends nothing (the `if
response.status_code == 200` has no `else`). -/
def batchStep (inp : BatchInput) : Option BatchEntry :=
  match inp.outcome with
  | NetOutcome.exc => some ⟨maskPassword inp.password, BreachedFlag.err, 0⟩
  | NetOutcome.resp status lines =>
    if status = 200 then
      match singleCheck inp.sha1_hash lines with
      | some (found, c) =>
        some ⟨maskPassword inp.password,
              if found then BreachedFlag.yes else BreachedFlag.no, c⟩
      | none => some ⟨maskPassword inp.password, BreachedFlag.err, 0⟩
    else none

/-- The batch loop over all passwords. -/
def batchCheck (inps : List BatchInput) : List BatchEntry :=
  inps.filterMap batchStep

/-- `safe_count = len([r for r in results if not r['breached']])`. -/
def safe_count (rs : List BatchEntry) : Nat :=
  rs.countP (fun r => r.breached = BreachedFlag.no)

/-- `breached_count = len([r for r in results if r['breached'] and r['breached'] != 'Error'])`. -/
def breached_count (rs : List BatchEntry) : Nat :=
  rs.countP (fun r => r.breached = BreachedFlag.yes)

/-- `error_count = len([r for r in results if r['breached'] == 'Error'])`. -/
def error_count (rs : List BatchEntry) : Nat :=
  rs.countP (fun r => r.breached = BreachedFlag.err)

/-- A batch input whose request either raised or returned HTTP 200. -/
def isHandled : NetOutcome → Bool
  | NetOutcome.exc => true
  | NetOutcome.resp status _ => status = 200

/-- C7 counterexample: a single password whose request returns status 404
(without raising) produces no results entry at all, so the summary counts sum
to `0`, not to the number of input passwords. -/
theorem batch_results_counterexample :
    (batchCheck [⟨"password1", "0000000000000000000000000000000000000000",
        NetOutcome.resp 404 []⟩]).length = 0 ∧
    ([⟨"password1", "0000000000000000000000000000000000000000",
        NetOutcome.resp 404 []⟩] : List BatchInput).length = 1 ∧
    safe_count (batchCheck [⟨"password1", "0000000000000000000000000000000000000000",
        NetOutcome.resp 404 []⟩])
      + breached_count (batchCheck [⟨"password1",
          "0000000000000000000000000000000000000000", NetOutcome.resp 404 []⟩])
      + error_count (batchCheck [⟨"password1",
          "0000000000000000000000000000000000000000", NetOutcome.resp 404 []⟩]) = 0 := by
  refine ⟨by decide, by decide, by decide⟩

/-- C7 (amended): a password whose request raises produces exactly one
`'Error'` entry, a password whose request returns 200 produces exactly one
entry (`'Error'` if the body fails to parse, otherwise its breached flag and
count), and a password whose request returns any other status produces no
entry; hence the safe, breached and error summary counts sum to the number of
entries produced, which is the number of handled (raised-or-200) passwords. -/
theorem batchStep_isSome (inp : BatchInput) :
    (batchStep inp).isSome = isHandled inp.outcome := by
  obtain ⟨pw, hash, outcome⟩ := inp
  cases outcome with
  | exc => rfl
  | resp status lines =>
    by_cases hs : status = 200
    · simp only [batchStep, isHandled, if_pos hs]
      cases singleCheck hash lines with
      | none => simp [hs]
      | some p =>
        obtain ⟨found, c⟩ := p
        simp [hs]
    · simp only [batchStep, isHandled, if_neg hs]
      simp [hs]

theorem batch_results_amended (inps : List BatchInput) :
    (∀ inp : BatchInput, (batchStep inp).isSome = isHandled inp.outcome) ∧
    (batchCheck inps).length = inps.countP (fun i => isHandled i.outcome) ∧
    safe_count (batchCheck inps) + breached_count (batchCheck inps)
      + error_count (batchCheck inps) = (batchCheck inps).length := by
  refine ⟨batchStep_isSome, ?_, ?_⟩
  · rw [batchCheck]
    induction inps with
    | nil => rfl
    | cons i rest ih =>
      rw [List.filterMap_cons, List.countP_cons]
      have hs := batchStep_isSome i
      cases hb : batchStep i with
      | none =>
        rw [hb] at hs
        simp only [Option.isSome_none] at hs
        rw [ih]
        simp [← hs]
      | some e =>
        rw [hb] at hs
        simp only [Option.isSome_some] at hs
        rw [List.length_cons, ih]
        simp [← hs]
  · induction batchCheck inps with
    | nil => rfl
    | cons e rest ih =>
      rw [safe_count, breached_count, error_count,
          List.countP_cons, List.countP_cons, List.countP_cons, List.length_cons]
      rw [safe_count, breached_count, error_count] at ih
      cases e.breached <;> simp <;> omega

end BreachChecker

/-! ## Persistence adapter of the dashboard (`load_security_data` /
`save_security_data`)

The on-disk state is a JSON document.  JSON values are modelled by the mutual
inductives below; numbers carry their decimal digits (sign, integer digits,
optional fractional digits), which is exactly what `json.dump` writes and
`json.load` reads back for the ints and floats the dashboard stores.  -/

namespace Persist

mutual
inductive JVal where
  | jnull : JVal
  | jbool (b : Bool) : JVal
  | jnum (neg : Bool) (ip : List Nat) (frac : Option (List Nat)) : JVal
  | jstr (s : String) : JVal
  | jarr (items : JArr) : JVal
  | jobj (items : JObj) : JVal
inductive JArr where
  | nil : JArr
  | cons (v : JVal) (t : JArr) : JArr
inductive JObj where
  | nil : JObj
  | cons (k : String) (v : JVal) (t : JObj) : JObj
end

def lbrace : Char := Char.ofNat 123

def rbrace : Char := Char.ofNat 125

def digitChar (d : Nat) : Char := Char.ofNat (48 + d)

/-- The `indent=2` prefix at nesting level `lvl`. -/
def indentChars (lvl : Nat) : List Char := List.replicate (2 * lvl) ' '

/-- `json.dump`'s string escaping for the characters the dashboard writes:
quote, backslash and the three common control characters.  (Other control
characters and non-ASCII would be `\uXXXX`-escaped by `ensure_ascii`; the
well-formedness predicate `wfStr` below excludes them.) -/
def escapeChar (c : Char) : List Char :=
  if c = '"' then ['\\', '"']
  else if c = '\\' then ['\\', '\\']
  else if c = '\n' then ['\\', 'n']
  else if c = '\t' then ['\\', 't']
  else if c = '\r' then ['\\', 'r']
  else [c]

/-- A JSON string literal: quote, escaped characters, quote. -/
def printString (s : String) : List Char :=
  '"' :: (s.data.map escapeChar).flatten ++ ['"']

/-- The fractional part of a printed number. -/
def fracChars : Option (List Nat) → List Char
  | none => []
  | some ds => '.' :: ds.map digitChar

/-- A JSON number: optional minus sign, integer digits, optional fractional
digits (`repr` of a Python int or float). -/
def printNum (neg : Bool) (ip : List Nat) (frac : Option (List Nat)) : List Char :=
  (if neg then ['-'] else []) ++ ip.map digitChar ++ fracChars frac

mutual
/-- `json.dump(data, f, indent=2)` at nesting level `lvl` (with the default
separators `',', ': '` that apply when `indent` is given). -/
def printVal (lvl : Nat) : JVal → List Char
  | JVal.jnull => ['n', 'u', 'l', 'l']
  | JVal.jbool true => ['t', 'r', 'u', 'e']
  | JVal.jbool false => ['f', 'a', 'l', 's', 'e']
  | JVal.jnum neg ip frac => printNum neg ip frac
  | JVal.jstr s => printString s
  | JVal.jarr JArr.nil => ['[', ']']
  | JVal.jarr (JArr.cons v t) =>
    '[' :: '\n' :: printArrItems (lvl + 1) v t ++ '\n' :: indentChars lvl ++ [']']
  | JVal.jobj JObj.nil => [lbrace, rbrace]
  | JVal.jobj (JObj.cons k v t) =>
    lbrace :: '\n' :: printObjItems (lvl + 1) k v t ++ '\n' :: indentChars lvl ++ [rbrace]
termination_by v => sizeOf v
/-- The comma-and-newline separated items of a non-empty array. -/
def printArrItems (lvl : Nat) (v : JVal) (t : JArr) : List Char :=
  match t with
  | JArr.nil => indentChars lvl ++ printVal lvl v
  | JArr.cons v2 t2 =>
    indentChars lvl ++ printVal lvl v ++ ',' :: '\n' :: printArrItems lvl v2 t2
termination_by 1 + sizeOf v + sizeOf t
/-- The `"key": value` items of a non-empty object. -/
def printObjItems (lvl : Nat) (k : String) (v : JVal) (t : JObj) : List Char :=
  match t with
  | JObj.nil => indentChars lvl ++ printString k ++ ':' :: ' ' :: printVal lvl v
  | JObj.cons k2 v2 t2 =>
    indentChars lvl ++ printString k ++ ':' :: ' ' :: printVal lvl v ++
      ',' :: '\n' :: printObjItems lvl k2 v2 t2
termination_by 1 + sizeOf v + sizeOf t
end

/-- JSON whitespace. -/
def isWsChar (c : Char) : Bool := c = ' ' || c = '\n' || c = '\t' || c = '\r'

def skipWs : List Char → List Char
  | [] => []
  | c :: t => if isWsChar c then skipWs t else c :: t

/-- Consume an expected literal tail (`ull`, `rue`, `alse`). -/
def dropLit : List Char → List Char → Option (List Char)
  | [], l => some l
  | p :: ps, c :: cs => if c = p then dropLit ps cs else none
  | _ :: _, [] => none

/-- Longest digit prefix, as digit values. -/
def takeDigits : List Char → List Nat × List Char
  | [] => ([], [])
  | c :: t =>
    if c.isDigit then
      let r := takeDigits t
      ((c.toNat - 48) :: r.1, r.2)
    else ([], c :: t)

/-- Decode one escape character after a backslash. -/
def unescape (e : Char) : Option Char :=
  if e = '"' then some '"'
  else if e = '\\' then some '\\'
  else if e = '/' then some '/'
  else if e = 'n' then some '\n'
  else if e = 't' then some '\t'
  else if e = 'r' then some '\r'
  else none

mutual
/-- The body of a JSON string literal after the opening quote, with the
escape sequences `json` understands for the characters `escapeChar` emits. -/
def parseStringBody : List Char → Option (List Char × List Char)
  | [] => none
  | c :: t =>
    if c = '"' then some ([], t)
    else if c = '\\' then parseEscape t
    else (parseStringBody t).map (fun r => (c :: r.1, r.2))
/-- The remainder of a string literal after a backslash. -/
def parseEscape : List Char → Option (List Char × List Char)
  | [] => none
  | e :: t2 =>
    match unescape e with
    | none => none
    | some dc => (parseStringBody t2).map (fun r => (dc :: r.1, r.2))
end

/-- The optional `.digits` fraction after the integer digits. -/
def parseFracPart (neg : Bool) (ipd : List Nat) : List Char → Option (JVal × List Char)
  | [] => some (JVal.jnum neg ipd none, [])
  | c :: r2 =>
    if c = '.' then
      match takeDigits r2 with
      | ([], _) => none
      | (f :: fs, r3) => some (JVal.jnum neg ipd (some (f :: fs)), r3)
    else some (JVal.jnum neg ipd none, c :: r2)

/-- Digits and optional fraction of a JSON number, after the sign. -/
def parseNumBody (neg : Bool) (l1 : List Char) : Option (JVal × List Char) :=
  match takeDigits l1 with
  | ([], _) => none
  | (d :: ds, r1) => parseFracPart neg (d :: ds) r1

/-- A JSON number (optional sign, integer digits, optional fraction; the
exponent form never arises in what `json.dump` writes for the dashboard's
values). -/
def parseNumber (l : List Char) : Option (JVal × List Char) :=
  match l with
  | [] => none
  | c :: t => if c = '-' then parseNumBody true t else parseNumBody false (c :: t)

mutual
/-- Recursive-descent JSON value parser (the model of `json.load`), with a
fuel argument bounding the nesting recursion. -/
def parseVal : Nat → List Char → Option (JVal × List Char)
  | 0, _ => none
  | fuel + 1, l =>
    match skipWs l with
    | [] => none
    | c :: t =>
      if c = 'n' then (dropLit ['u', 'l', 'l'] t).map (fun r => (JVal.jnull, r))
      else if c = 't' then (dropLit ['r', 'u', 'e'] t).map (fun r => (JVal.jbool true, r))
      else if c = 'f' then (dropLit ['a', 'l', 's', 'e'] t).map (fun r => (JVal.jbool false, r))
      else if c = '"' then (parseStringBody t).map (fun r => (JVal.jstr ⟨r.1⟩, r.2))
      else if c = '[' then
        match skipWs t with
        | [] => none
        | c2 :: t2 =>
          if c2 = ']' then some (JVal.jarr JArr.nil, t2)
          else (parseArrItems fuel (c2 :: t2)).map (fun r => (JVal.jarr r.1, r.2))
      else if c = lbrace then
        match skipWs t with
        | [] => none
        | c2 :: t2 =>
          if c2 = rbrace then some (JVal.jobj JObj.nil, t2)
          else (parseObjItems fuel (c2 :: t2)).map (fun r => (JVal.jobj r.1, r.2))
      else parseNumber (c :: t)
/-- One-or-more comma-separated array items up to the closing bracket. -/
def parseArrItems : Nat → List Char → Option (JArr × List Char)
  | 0, _ => none
  | fuel + 1, l =>
    match parseVal fuel l with
    | none => none
    | some (v, r) =>
      match skipWs r with
      | [] => none
      | c :: t =>
        if c = ',' then (parseArrItems fuel t).map (fun r2 => (JArr.cons v r2.1, r2.2))
        else if c = ']' then some (JArr.cons v JArr.nil, t)
        else none
/-- One-or-more `"key": value` object items up to the closing brace. -/
def parseObjItems : Nat → List Char → Option (JObj × List Char)
  | 0, _ => none
  | fuel + 1, l =>
    match skipWs l with
    | [] => none
    | c :: t =>
      if c = '"' then
        match parseStringBody t with
        | none => none
        | some (k, r1) =>
          match skipWs r1 with
          | [] => none
          | c2 :: t2 =>
            if c2 = ':' then
              match parseVal fuel t2 with
              | none => none
              | some (v, r2) =>
                match skipWs r2 with
                | [] => none
                | c3 :: t3 =>
                  if c3 = ',' then
                    (parseObjItems fuel t3).map (fun r3 => (JObj.cons ⟨k⟩ v r3.1, r3.2))
                  else if c3 = rbrace then some (JObj.cons ⟨k⟩ v JObj.nil, t3)
                  else none
            else none
      else none
end

/-- Characters stored in the document that both `json.dump` and our model of
it handle exactly: printable ASCII, plus the three escaped control
characters. -/
def goodStrChar (c : Char) : Bool :=
  (32 ≤ c.toNat && c.toNat ≤ 126) || c = '\n' || c = '\t' || c = '\r'

def wfStr (s : String) : Bool := s.data.all goodStrChar

def wfDigits (ds : List Nat) : Bool := !ds.isEmpty && ds.all (· < 10)

def wfNum (ip : List Nat) (frac : Option (List Nat)) : Bool :=
  wfDigits ip && frac.all wfDigits

mutual
/-- Documents representable in this model: ASCII strings and decimal
numbers, i.e. exactly the shape of data the dashboard persists. -/
def wfV : JVal → Bool
  | JVal.jnull => true
  | JVal.jbool _ => true
  | JVal.jnum _ ip frac => wfNum ip frac
  | JVal.jstr s => wfStr s
  | JVal.jarr a => wfA a
  | JVal.jobj o => wfO o
def wfA : JArr → Bool
  | JArr.nil => true
  | JArr.cons v t => wfV v && wfA t
def wfO : JObj → Bool
  | JObj.nil => true
  | JObj.cons k v t => wfStr k && wfV v && wfO t
end

mutual
/-- Nesting size, a bound for the parser fuel. -/
def sizeV : JVal → Nat
  | JVal.jarr a => sizeA a + 1
  | JVal.jobj o => sizeO o + 1
  | _ => 1
def sizeA : JArr → Nat
  | JArr.nil => 1
  | JArr.cons v t => sizeV v + sizeA t + 1
def sizeO : JObj → Nat
  | JObj.nil => 1
  | JObj.cons k v t => sizeV v + sizeO t + 1
end

/-- `json.dump(data, f, indent=2)`: the snapshot written to
`security_dashboard_data.json`. -/
def dumps (v : JVal) : String := ⟨printVal 0 v⟩

/-- `save_security_data(data)`: serialize and overwrite the whole file. -/
def save_security_data (v : JVal) : String := dumps v

/-- `json.load(f)`: parse the whole file, rejecting trailing garbage. -/
def loads (s : String) : Option JVal :=
  match parseVal (s.length + 1) s.data with
  | none => none
  | some (v, r) => if skipWs r = [] then some v else none

/-- The fresh empty document returned when the file is absent or malformed. -/
def defaultDoc : JVal :=
  JVal.jobj
    (JObj.cons "assessments" (JVal.jarr JArr.nil)
      (JObj.cons "goals" (JVal.jarr JArr.nil)
        (JObj.cons "habits" (JVal.jarr JArr.nil)
          (JObj.cons "last_assessment" JVal.jnull JObj.nil))))

/-- `load_security_data()`: the file contents (`none` when the file is
absent), parsed; any failure in the `try` block yields the fresh empty
document. -/
def load_security_data (file : Option String) : JVal :=
  match file with
  | none => defaultDoc
  | some s =>
    match loads s with
    | some v => v
    | none => defaultDoc

/-! ### Round-trip infrastructure -/

theorem skipWs_ws_append (p l : List Char) (h : ∀ c ∈ p, isWsChar c = true) :
    skipWs (p ++ l) = skipWs l := by
  induction p with
  | nil => rfl
  | cons c t ih =>
    rw [List.cons_append, skipWs, if_pos (h c (List.mem_cons_self c t))]
    exact ih (fun x hx => h x (List.mem_cons_of_mem c hx))

theorem skipWs_not_ws (c : Char) (l : List Char) (h : isWsChar c = false) :
    skipWs (c :: l) = c :: l := by
  rw [skipWs, if_neg]
  simp [h]

theorem indentChars_ws (lvl : Nat) : ∀ c ∈ indentChars lvl, isWsChar c = true := by
  intro c hc
  rw [indentChars] at hc
  have := List.eq_of_mem_replicate hc
  subst this
  rfl

theorem digitChar_facts (d : Nat) (h : d < 10) :
    (digitChar d).isDigit = true ∧ (digitChar d).toNat - 48 = d ∧
    isWsChar (digitChar d) = false ∧
    digitChar d ≠ 'n' ∧ digitChar d ≠ 't' ∧ digitChar d ≠ 'f' ∧ digitChar d ≠ '"' ∧
    digitChar d ≠ '[' ∧ digitChar d ≠ lbrace ∧ digitChar d ≠ ']' ∧ digitChar d ≠ rbrace ∧
    digitChar d ≠ ',' ∧ digitChar d ≠ '-' ∧ digitChar d ≠ '.' := by
  interval_cases d <;> exact (by decide)

/-- The continuation after a printed number must not begin with a digit or a
dot (in every use it begins with a separator, a closer, or is empty). -/
def numDelim : List Char → Prop
  | [] => True
  | c :: _ => c.isDigit = false ∧ c ≠ '.'

/-- The continuation after a digit run must not begin with a digit. -/
def headNotDigit : List Char → Prop
  | [] => True
  | c :: _ => c.isDigit = false

theorem numDelim_headNotDigit (rest : List Char) (h : numDelim rest) :
    headNotDigit rest := by
  cases rest with
  | nil => trivial
  | cons c t => exact h.1

theorem takeDigits_exact (ds : List Nat) (rest : List Char)
    (hds : ∀ d ∈ ds, d < 10) (hrest : headNotDigit rest) :
    takeDigits (ds.map digitChar ++ rest) = (ds, rest) := by
  induction ds with
  | nil =>
    cases rest with
    | nil => rfl
    | cons c t =>
      rw [List.map_nil, List.nil_append, takeDigits, if_neg]
      have hc : c.isDigit = false := hrest
      simp [hc]
  | cons d tl ih =>
    have hd := digitChar_facts d (hds d (List.mem_cons_self d tl))
    rw [List.map_cons, List.cons_append, takeDigits, if_pos hd.1,
        ih (fun x hx => hds x (List.mem_cons_of_mem d hx))]
    rw [hd.2.1]

theorem parseStringBody_roundtrip (l rest : List Char)
    (h : ∀ c ∈ l, goodStrChar c = true) :
    parseStringBody ((l.map escapeChar).flatten ++ '"' :: rest) = some (l, rest) := by
  induction l with
  | nil =>
    rw [List.map_nil, List.flatten_nil, List.nil_append, parseStringBody, if_pos rfl]
  | cons c t ih =>
    have iht := ih (fun x hx => h x (List.mem_cons_of_mem c hx))
    rw [List.map_cons, List.flatten_cons, List.append_assoc]
    by_cases h1 : c = '"'
    · subst h1
      rw [show escapeChar '"' = ['\\', '"'] from rfl, List.cons_append, List.cons_append,
          List.nil_append, parseStringBody, if_neg (by decide), if_pos rfl,
          parseEscape, show unescape '"' = some '"' from rfl, iht]
      rfl
    · by_cases h2 : c = '\\'
      · subst h2
        rw [show escapeChar '\\' = ['\\', '\\'] from rfl, List.cons_append, List.cons_append,
            List.nil_append, parseStringBody, if_neg (by decide), if_pos rfl,
            parseEscape, show unescape '\\' = some '\\' from rfl, iht]
        rfl
      · by_cases h3 : c = '\n'
        · subst h3
          rw [show escapeChar '\n' = ['\\', 'n'] from rfl, List.cons_append, List.cons_append,
              List.nil_append, parseStringBody, if_neg (by decide), if_pos rfl,
              parseEscape, show unescape 'n' = some '\n' from rfl, iht]
          rfl
        · by_cases h4 : c = '\t'
          · subst h4
            rw [show escapeChar '\t' = ['\\', 't'] from rfl, List.cons_append, List.cons_append,
                List.nil_append, parseStringBody, if_neg (by decide), if_pos rfl,
                parseEscape, show unescape 't' = some '\t' from rfl, iht]
            rfl
          · by_cases h5 : c = '\x0d'
            · subst h5
              rw [show escapeChar '\x0d' = ['\\', 'r'] from rfl, List.cons_append,
                  List.cons_append, List.nil_append, parseStringBody, if_neg (by decide),
                  if_pos rfl, parseEscape, show unescape 'r' = some '\x0d' from rfl, iht]
              rfl
            · have hesc : escapeChar c = [c] := by
                rw [escapeChar, if_neg h1, if_neg h2, if_neg h3, if_neg h4, if_neg h5]
              rw [hesc, List.cons_append, List.nil_append,
                  parseStringBody, if_neg h1, if_neg h2, iht]
              rfl

theorem parseNumBody_roundtrip (neg : Bool) (ip : List Nat) (frac : Option (List Nat))
    (rest : List Char) (hwf : wfNum ip frac = true) (hrest : numDelim rest) :
    parseNumBody neg (ip.map digitChar ++ fracChars frac ++ rest)
      = some (JVal.jnum neg ip frac, rest) := by
  rw [wfNum, Bool.and_eq_true] at hwf
  obtain ⟨hip, hfrac⟩ := hwf
  rw [wfDigits, Bool.and_eq_true] at hip
  obtain ⟨hipne, hipd⟩ := hip
  have hipd2 : ∀ d ∈ ip, d < 10 := by
    intro d hd
    have := List.all_eq_true.mp hipd d hd
    simpa using this
  obtain ⟨d, ds, rfl⟩ : ∃ d ds, ip = d :: ds := by
    cases ip with
    | nil => simp at hipne
    | cons d ds => exact ⟨d, ds, rfl⟩
  cases frac with
  | none =>
    rw [fracChars, List.append_nil, parseNumBody,
        takeDigits_exact (d :: ds) rest hipd2 (numDelim_headNotDigit rest hrest)]
    show parseFracPart neg (d :: ds) rest = some (JVal.jnum neg (d :: ds) none, rest)
    cases rest with
    | nil => rw [parseFracPart]
    | cons c t =>
      obtain ⟨hcd, hcdot⟩ := hrest
      rw [parseFracPart, if_neg hcdot]
  | some fs =>
    rw [Option.all_some] at hfrac
    rw [wfDigits, Bool.and_eq_true] at hfrac
    obtain ⟨hfne, hfd⟩ := hfrac
    have hfd2 : ∀ x ∈ fs, x < 10 := by
      intro x hx
      have := List.all_eq_true.mp hfd x hx
      simpa using this
    obtain ⟨f, fs2, rfl⟩ : ∃ f fs2, fs = f :: fs2 := by
      cases fs with
      | nil => simp at hfne
      | cons f fs2 => exact ⟨f, fs2, rfl⟩
    rw [fracChars]
    have hform : (d :: ds).map digitChar ++ ('.' :: (f :: fs2).map digitChar) ++ rest
        = (d :: ds).map digitChar ++ ('.' :: ((f :: fs2).map digitChar ++ rest)) := by
      simp [List.append_assoc]
    rw [hform, parseNumBody,
        takeDigits_exact (d :: ds) ('.' :: ((f :: fs2).map digitChar ++ rest)) hipd2
          (show ('.' : Char).isDigit = false by decide)]
    show parseFracPart neg (d :: ds) ('.' :: ((f :: fs2).map digitChar ++ rest))
        = some (JVal.jnum neg (d :: ds) (some (f :: fs2)), rest)
    rw [parseFracPart, if_pos rfl,
        takeDigits_exact (f :: fs2) rest hfd2 (numDelim_headNotDigit rest hrest)]

theorem parseNumber_roundtrip (neg : Bool) (ip : List Nat) (frac : Option (List Nat))
    (rest : List Char) (hwf : wfNum ip frac = true) (hrest : numDelim rest) :
    parseNumber (printNum neg ip frac ++ rest) = some (JVal.jnum neg ip frac, rest) := by
  have hipne : ip ≠ [] := by
    rw [wfNum, Bool.and_eq_true, wfDigits, Bool.and_eq_true] at hwf
    simpa using hwf.1.1
  have hd10 : ∀ d ∈ ip, d < 10 := by
    rw [wfNum, Bool.and_eq_true, wfDigits, Bool.and_eq_true] at hwf
    intro d hd
    have := List.all_eq_true.mp hwf.1.2 d hd
    simpa using this
  obtain ⟨d, ds, rfl⟩ : ∃ d ds, ip = d :: ds := by
    cases ip with
    | nil => exact absurd rfl hipne
    | cons d ds => exact ⟨d, ds, rfl⟩
  have hbody := parseNumBody_roundtrip neg (d :: ds) frac rest hwf hrest
  cases neg with
  | true =>
    have hform : printNum true (d :: ds) frac ++ rest
        = '-' :: ((d :: ds).map digitChar ++ fracChars frac ++ rest) := by
      rw [printNum]
      simp [List.append_assoc]
    rw [hform, parseNumber, if_pos rfl]
    exact hbody
  | false =>
    have hd := digitChar_facts d (hd10 d (List.mem_cons_self d ds))
    have hform : printNum false (d :: ds) frac ++ rest
        = digitChar d :: (ds.map digitChar ++ fracChars frac ++ rest) := by
      rw [printNum]
      simp [List.append_assoc]
    rw [hform, parseNumber, if_neg hd.2.2.2.2.2.2.2.2.2.2.2.2.1]
    have hform2 : digitChar d :: (ds.map digitChar ++ fracChars frac ++ rest)
        = (d :: ds).map digitChar ++ fracChars frac ++ rest := by
      simp [List.append_assoc]
    rw [hform2]
    exact hbody

/-- What follows the first item of a printed non-empty array: either the
closer (`closeWs` is the closing indentation) or a comma, a newline, the next
item's indentation and the next item. -/
def printArrTail (lvl : Nat) (a : JArr) (closeWs rest : List Char) : List Char :=
  match a with
  | JArr.nil => '\n' :: closeWs ++ ']' :: rest
  | JArr.cons v2 t2 =>
    ',' :: '\n' :: indentChars lvl ++ printVal lvl v2 ++ printArrTail lvl t2 closeWs rest

/-- The object analogue of `printArrTail`. -/
def printObjTail (lvl : Nat) (o : JObj) (closeWs rest : List Char) : List Char :=
  match o with
  | JObj.nil => '\n' :: closeWs ++ rbrace :: rest
  | JObj.cons k2 v2 t2 =>
    ',' :: '\n' :: indentChars lvl ++ printString k2 ++ ':' :: ' ' :: printVal lvl v2 ++
      printObjTail lvl t2 closeWs rest

theorem printArrItems_decompose (lvl : Nat) (v : JVal) (a : JArr)
    (closeWs rest : List Char) :
    printArrItems lvl v a ++ '\n' :: closeWs ++ ']' :: rest
      = indentChars lvl ++ printVal lvl v ++ printArrTail lvl a closeWs rest :=
  match a with
  | JArr.nil => by
    rw [printArrItems, printArrTail]
    simp [List.append_assoc]
  | JArr.cons v2 t2 => by
    have ih := printArrItems_decompose lvl v2 t2 closeWs rest
    rw [printArrItems, printArrTail]
    simp only [List.append_assoc, List.cons_append, List.nil_append] at ih ⊢
    rw [ih]

theorem printObjItems_decompose (lvl : Nat) (k : String) (v : JVal) (o : JObj)
    (closeWs rest : List Char) :
    printObjItems lvl k v o ++ '\n' :: closeWs ++ rbrace :: rest
      = indentChars lvl ++ printString k ++ ':' :: ' ' :: printVal lvl v ++
          printObjTail lvl o closeWs rest :=
  match o with
  | JObj.nil => by
    rw [printObjItems, printObjTail]
    simp [List.append_assoc]
  | JObj.cons k2 v2 t2 => by
    have ih := printObjItems_decompose lvl k2 v2 t2 closeWs rest
    rw [printObjItems, printObjTail]
    simp only [List.append_assoc, List.cons_append, List.nil_append] at ih ⊢
    rw [ih]

/-- Every printed value begins with a character that is not whitespace and is
none of the tokens a parser context could confuse it with. -/
theorem printVal_head (lvl : Nat) (v : JVal) (hwf : wfV v = true) :
    ∃ c cs, printVal lvl v = c :: cs ∧ isWsChar c = false ∧
      c ≠ ']' ∧ c ≠ rbrace ∧ c ≠ ',' := by
  cases v with
  | jnull =>
    refine ⟨'n', _, by rw [printVal], by decide, by decide, by decide, by decide⟩
  | jbool b =>
    cases b with
    | true => refine ⟨'t', _, by rw [printVal], by decide, by decide, by decide, by decide⟩
    | false => refine ⟨'f', _, by rw [printVal], by decide, by decide, by decide, by decide⟩
  | jnum neg ip frac =>
    rw [wfV, wfNum, Bool.and_eq_true, wfDigits, Bool.and_eq_true] at hwf
    obtain ⟨⟨hipne, hipd⟩, _⟩ := hwf
    obtain ⟨d, ds, rfl⟩ : ∃ d ds, ip = d :: ds := by
      cases ip with
      | nil => simp at hipne
      | cons d ds => exact ⟨d, ds, rfl⟩
    have hd : d < 10 := by
      have := List.all_eq_true.mp hipd d (List.mem_cons_self d ds)
      simpa using this
    have hfacts := digitChar_facts d hd
    cases neg with
    | true =>
      refine ⟨'-', (d :: ds).map digitChar ++ fracChars frac, ?_,
        by decide, by decide, by decide, by decide⟩
      rw [printVal, printNum]
      simp
    | false =>
      refine ⟨digitChar d, ds.map digitChar ++ fracChars frac, ?_,
        hfacts.2.2.1, hfacts.2.2.2.2.2.2.2.2.2.1, hfacts.2.2.2.2.2.2.2.2.2.2.1,
        hfacts.2.2.2.2.2.2.2.2.2.2.2.1⟩
      rw [printVal, printNum]
      simp
  | jstr s =>
    refine ⟨'"', (s.data.map escapeChar).flatten ++ ['"'], ?_,
      by decide, by decide, by decide, by decide⟩
    rw [printVal, printString]
    simp
  | jarr a =>
    cases a with
    | nil => refine ⟨'[', _, by rw [printVal], by decide, by decide, by decide, by decide⟩
    | cons v2 t2 =>
      refine ⟨'[', '\n' :: printArrItems (lvl + 1) v2 t2 ++ '\n' :: indentChars lvl ++ [']'],
        by rw [printVal]; simp, by decide, by decide, by decide, by decide⟩
  | jobj o =>
    cases o with
    | nil => refine ⟨lbrace, _, by rw [printVal], by decide, by decide, by decide, by decide⟩
    | cons k2 v2 t2 =>
      refine ⟨lbrace,
        '\n' :: printObjItems (lvl + 1) k2 v2 t2 ++ '\n' :: indentChars lvl ++ [rbrace],
        by rw [printVal]; simp, by decide, by decide, by decide, by decide⟩

theorem sizeV_pos (v : JVal) : 1 ≤ sizeV v := by
  cases v <;> rw [sizeV.eq_def] <;> dsimp only <;> omega

theorem sizeA_pos (a : JArr) : 1 ≤ sizeA a := by
  cases a <;> rw [sizeA.eq_def] <;> dsimp only <;> omega

theorem sizeO_pos (o : JObj) : 1 ≤ sizeO o := by
  cases o <;> rw [sizeO.eq_def] <;> dsimp only <;> omega

theorem numDelim_printArrTail (lvl : Nat) (a : JArr) (closeWs rest : List Char) :
    numDelim (printArrTail lvl a closeWs rest) := by
  cases a with
  | nil =>
    rw [printArrTail]
    exact ⟨by decide, by decide⟩
  | cons v2 t2 =>
    rw [printArrTail]
    exact ⟨by decide, by decide⟩

theorem numDelim_printObjTail (lvl : Nat) (o : JObj) (closeWs rest : List Char) :
    numDelim (printObjTail lvl o closeWs rest) := by
  cases o with
  | nil =>
    rw [printObjTail]
    exact ⟨by decide, by decide⟩
  | cons k2 v2 t2 =>
    rw [printObjTail]
    exact ⟨by decide, by decide⟩

theorem wfStr_forall (s : String) (h : wfStr s = true) :
    ∀ c ∈ s.data, goodStrChar c = true := by
  intro c hc
  rw [wfStr] at h
  have := List.all_eq_true.mp h c hc
  simpa using this

/-- The parser inverts the printer: parsing a printed well-formed value (with
any leading whitespace and any `numDelim` continuation) succeeds with the
original value, given fuel at least its nesting size; likewise for the item
lists of arrays and objects. -/
theorem parse_print_roundtrip (fuel : Nat) :
    (∀ (v : JVal) (lvl : Nat) (pre rest : List Char),
      wfV v = true → sizeV v ≤ fuel →
      (∀ c ∈ pre, isWsChar c = true) → numDelim rest →
      parseVal fuel (pre ++ (printVal lvl v ++ rest)) = some (v, rest)) ∧
    (∀ (v : JVal) (a : JArr) (lvl : Nat) (pre closeWs rest : List Char),
      wfV v = true → wfA a = true → sizeV v + sizeA a ≤ fuel →
      (∀ c ∈ pre, isWsChar c = true) → (∀ c ∈ closeWs, isWsChar c = true) →
      parseArrItems fuel (pre ++ (printVal lvl v ++ printArrTail lvl a closeWs rest))
        = some (JArr.cons v a, rest)) ∧
    (∀ (k : String) (v : JVal) (o : JObj) (lvl : Nat) (pre closeWs rest : List Char),
      wfStr k = true → wfV v = true → wfO o = true → sizeV v + sizeO o ≤ fuel →
      (∀ c ∈ pre, isWsChar c = true) → (∀ c ∈ closeWs, isWsChar c = true) →
      parseObjItems fuel
        (pre ++ (printString k ++ ':' :: ' ' ::
          (printVal lvl v ++ printObjTail lvl o closeWs rest)))
        = some (JObj.cons k v o, rest)) := by
  induction fuel with
  | zero =>
    refine ⟨?_, ?_, ?_⟩
    · intro v _ _ _ _ hsize _ _
      have := sizeV_pos v
      omega
    · intro v _ _ _ _ _ _ _ hsize _ _
      have := sizeV_pos v
      omega
    · intro _ v _ _ _ _ _ _ _ _ hsize _ _
      have := sizeV_pos v
      omega
  | succ fuel ih =>
    obtain ⟨ihP, ihQ, ihR⟩ := ih
    refine ⟨?_, ?_, ?_⟩
    · -- parseVal
      intro v lvl pre rest hwf hsize hpre hrest
      cases v with
      | jnull =>
        have h1 : skipWs (pre ++ (printVal lvl JVal.jnull ++ rest))
            = 'n' :: ('u' :: 'l' :: 'l' :: rest) := by
          rw [skipWs_ws_append _ _ hpre, printVal,
              show (['n', 'u', 'l', 'l'] : List Char) ++ rest
                = 'n' :: ('u' :: 'l' :: 'l' :: rest) by simp]
          exact skipWs_not_ws _ _ (by decide)
        rw [parseVal, h1]
        dsimp only
        rw [if_pos rfl,
            show dropLit ['u', 'l', 'l'] ('u' :: 'l' :: 'l' :: rest) = some rest by
              rw [dropLit, if_pos rfl, dropLit, if_pos rfl, dropLit, if_pos rfl, dropLit]]
        rfl
      | jbool b =>
        cases b with
        | true =>
          have h1 : skipWs (pre ++ (printVal lvl (JVal.jbool true) ++ rest))
              = 't' :: ('r' :: 'u' :: 'e' :: rest) := by
            rw [skipWs_ws_append _ _ hpre, printVal,
                show (['t', 'r', 'u', 'e'] : List Char) ++ rest
                  = 't' :: ('r' :: 'u' :: 'e' :: rest) by simp]
            exact skipWs_not_ws _ _ (by decide)
          rw [parseVal, h1]
          dsimp only
          rw [if_neg (by decide), if_pos rfl,
              show dropLit ['r', 'u', 'e'] ('r' :: 'u' :: 'e' :: rest) = some rest by
                rw [dropLit, if_pos rfl, dropLit, if_pos rfl, dropLit, if_pos rfl, dropLit]]
          rfl
        | false =>
          have h1 : skipWs (pre ++ (printVal lvl (JVal.jbool false) ++ rest))
              = 'f' :: ('a' :: 'l' :: 's' :: 'e' :: rest) := by
            rw [skipWs_ws_append _ _ hpre, printVal,
                show (['f', 'a', 'l', 's', 'e'] : List Char) ++ rest
                  = 'f' :: ('a' :: 'l' :: 's' :: 'e' :: rest) by simp]
            exact skipWs_not_ws _ _ (by decide)
          rw [parseVal, h1]
          dsimp only
          rw [if_neg (by decide), if_neg (by decide), if_pos rfl,
              show dropLit ['a', 'l', 's', 'e'] ('a' :: 'l' :: 's' :: 'e' :: rest)
                  = some rest by
                rw [dropLit, if_pos rfl, dropLit, if_pos rfl, dropLit, if_pos rfl,
                    dropLit, if_pos rfl, dropLit]]
          rfl
      | jnum neg ip frac =>
        rw [wfV] at hwf
        have hnum := parseNumber_roundtrip neg ip frac rest hwf hrest
        have hipne : ip ≠ [] := by
          rw [wfNum, Bool.and_eq_true, wfDigits, Bool.and_eq_true] at hwf
          simpa using hwf.1.1
        have hd10 : ∀ d ∈ ip, d < 10 := by
          rw [wfNum, Bool.and_eq_true, wfDigits, Bool.and_eq_true] at hwf
          intro d hd
          have := List.all_eq_true.mp hwf.1.2 d hd
          simpa using this
        obtain ⟨d, ds, rfl⟩ : ∃ d ds, ip = d :: ds := by
          cases ip with
          | nil => exact absurd rfl hipne
          | cons d ds => exact ⟨d, ds, rfl⟩
        cases neg with
        | true =>
          have hform : printNum true (d :: ds) frac ++ rest
              = '-' :: ((d :: ds).map digitChar ++ fracChars frac ++ rest) := by
            rw [printNum]
            simp [List.append_assoc]
          have h1 : skipWs (pre ++ (printVal lvl (JVal.jnum true (d :: ds) frac) ++ rest))
              = '-' :: ((d :: ds).map digitChar ++ fracChars frac ++ rest) := by
            rw [skipWs_ws_append _ _ hpre, printVal, hform]
            exact skipWs_not_ws _ _ (by decide)
          rw [parseVal, h1]
          dsimp only
          rw [if_neg (by decide), if_neg (by decide), if_neg (by decide),
              if_neg (by decide), if_neg (by decide), if_neg (by decide), ← hform]
          exact hnum
        | false =>
          have hd := digitChar_facts d (hd10 d (List.mem_cons_self d ds))
          have hform : printNum false (d :: ds) frac ++ rest
              = digitChar d :: (ds.map digitChar ++ fracChars frac ++ rest) := by
            rw [printNum]
            simp [List.append_assoc]
          have h1 : skipWs (pre ++ (printVal lvl (JVal.jnum false (d :: ds) frac) ++ rest))
              = digitChar d :: (ds.map digitChar ++ fracChars frac ++ rest) := by
            rw [skipWs_ws_append _ _ hpre, printVal, hform]
            exact skipWs_not_ws _ _ hd.2.2.1
          rw [parseVal, h1]
          dsimp only
          rw [if_neg hd.2.2.2.1, if_neg hd.2.2.2.2.1, if_neg hd.2.2.2.2.2.1,
              if_neg hd.2.2.2.2.2.2.1, if_neg hd.2.2.2.2.2.2.2.1,
              if_neg hd.2.2.2.2.2.2.2.2.1, ← hform]
          exact hnum
      | jstr s =>
        rw [wfV] at hwf
        have h1 : skipWs (pre ++ (printVal lvl (JVal.jstr s) ++ rest))
            = '"' :: ((s.data.map escapeChar).flatten ++ '"' :: rest) := by
          rw [skipWs_ws_append _ _ hpre, printVal, printString,
              show ('"' :: (s.data.map escapeChar).flatten ++ ['"']) ++ rest
                = '"' :: ((s.data.map escapeChar).flatten ++ '"' :: rest) by simp]
          exact skipWs_not_ws _ _ (by decide)
        rw [parseVal, h1]
        dsimp only
        rw [if_neg (by decide), if_neg (by decide), if_neg (by decide), if_pos rfl,
            parseStringBody_roundtrip s.data rest (wfStr_forall s hwf)]
        rfl
      | jarr a =>
        cases a with
        | nil =>
          have h1 : skipWs (pre ++ (printVal lvl (JVal.jarr JArr.nil) ++ rest))
              = '[' :: (']' :: rest) := by
            rw [skipWs_ws_append _ _ hpre, printVal,
                show (['[', ']'] : List Char) ++ rest = '[' :: (']' :: rest) by simp]
            exact skipWs_not_ws _ _ (by decide)
          rw [parseVal, h1]
          dsimp only
          rw [if_neg (by decide), if_neg (by decide), if_neg (by decide),
              if_neg (by decide), if_pos rfl, skipWs_not_ws _ _ (by decide)]
          dsimp only
          rw [if_pos rfl]
        | cons v2 t2 =>
          rw [wfV, wfA, Bool.and_eq_true] at hwf
          obtain ⟨hv2, ht2⟩ := hwf
          rw [sizeV, sizeA] at hsize
          have hdec := printArrItems_decompose (lvl + 1) v2 t2 (indentChars lvl) rest
          obtain ⟨c0, cs0, hc0, hc0ws, hc0br, _, _⟩ := printVal_head (lvl + 1) v2 hv2
          have h1 : skipWs (pre ++ (printVal lvl (JVal.jarr (JArr.cons v2 t2)) ++ rest))
              = '[' :: ('\n' :: printArrItems (lvl + 1) v2 t2 ++
                  '\n' :: indentChars lvl ++ ']' :: rest) := by
            rw [skipWs_ws_append _ _ hpre, printVal,
                show ('[' :: '\n' :: printArrItems (lvl + 1) v2 t2 ++
                    '\n' :: indentChars lvl ++ [']']) ++ rest
                  = '[' :: ('\n' :: printArrItems (lvl + 1) v2 t2 ++
                      '\n' :: indentChars lvl ++ ']' :: rest) by simp]
            exact skipWs_not_ws _ _ (by decide)
          have h2 : skipWs ('\n' :: printArrItems (lvl + 1) v2 t2 ++
              '\n' :: indentChars lvl ++ ']' :: rest)
              = c0 :: (cs0 ++ printArrTail (lvl + 1) t2 (indentChars lvl) rest) := by
            have e : ('\n' :: printArrItems (lvl + 1) v2 t2 ++
                '\n' :: indentChars lvl ++ ']' :: rest : List Char)
                = '\n' :: (indentChars (lvl + 1) ++
                    (c0 :: (cs0 ++ printArrTail (lvl + 1) t2 (indentChars lvl) rest))) := by
              have hx := hdec
              rw [hc0] at hx
              simp only [List.append_assoc, List.cons_append, List.nil_append] at hx ⊢
              rw [hx]
            rw [e, skipWs, if_pos (by decide),
                skipWs_ws_append _ _ (indentChars_ws (lvl + 1))]
            exact skipWs_not_ws _ _ hc0ws
          rw [parseVal, h1]
          dsimp only
          rw [if_neg (by decide), if_neg (by decide), if_neg (by decide),
              if_neg (by decide), if_pos rfl, h2]
          dsimp only
          rw [if_neg hc0br]
          have hq := ihQ v2 t2 (lvl + 1) [] (indentChars lvl) rest hv2 ht2
            (by omega) (by intro c hc; simp at hc) (indentChars_ws lvl)
          rw [List.nil_append] at hq
          rw [show c0 :: (cs0 ++ printArrTail (lvl + 1) t2 (indentChars lvl) rest)
              = printVal (lvl + 1) v2 ++ printArrTail (lvl + 1) t2 (indentChars lvl) rest by
                rw [hc0]; simp,
              hq]
          rfl
      | jobj o =>
        cases o with
        | nil =>
          have h1 : skipWs (pre ++ (printVal lvl (JVal.jobj JObj.nil) ++ rest))
              = lbrace :: (rbrace :: rest) := by
            rw [skipWs_ws_append _ _ hpre, printVal,
                show ([lbrace, rbrace] : List Char) ++ rest
                  = lbrace :: (rbrace :: rest) by simp]
            exact skipWs_not_ws _ _ (by decide)
          rw [parseVal, h1]
          dsimp only
          rw [if_neg (by decide), if_neg (by decide), if_neg (by decide),
              if_neg (by decide), if_neg (by decide), if_pos rfl,
              skipWs_not_ws _ _ (by decide)]
          dsimp only
          rw [if_pos rfl]
        | cons k2 v2 t2 =>
          rw [wfV, wfO, Bool.and_eq_true, Bool.and_eq_true] at hwf
          obtain ⟨⟨hk2, hv2⟩, ht2⟩ := hwf
          rw [sizeV, sizeO] at hsize
          have hdec := printObjItems_decompose (lvl + 1) k2 v2 t2 (indentChars lvl) rest
          have h1 : skipWs (pre ++ (printVal lvl (JVal.jobj (JObj.cons k2 v2 t2)) ++ rest))
              = lbrace :: ('\n' :: printObjItems (lvl + 1) k2 v2 t2 ++
                  '\n' :: indentChars lvl ++ rbrace :: rest) := by
            rw [skipWs_ws_append _ _ hpre, printVal,
                show (lbrace :: '\n' :: printObjItems (lvl + 1) k2 v2 t2 ++
                    '\n' :: indentChars lvl ++ [rbrace]) ++ rest
                  = lbrace :: ('\n' :: printObjItems (lvl + 1) k2 v2 t2 ++
                      '\n' :: indentChars lvl ++ rbrace :: rest) by simp]
            exact skipWs_not_ws _ _ (by decide)
          have h2 : skipWs ('\n' :: printObjItems (lvl + 1) k2 v2 t2 ++
              '\n' :: indentChars lvl ++ rbrace :: rest)
              = '"' :: ((k2.data.map escapeChar).flatten ++ '"' :: (':' :: ' ' ::
                  (printVal (lvl + 1) v2 ++
                    printObjTail (lvl + 1) t2 (indentChars lvl) rest))) := by
            have e : ('\n' :: printObjItems (lvl + 1) k2 v2 t2 ++
                '\n' :: indentChars lvl ++ rbrace :: rest : List Char)
                = '\n' :: (indentChars (lvl + 1) ++
                    ('"' :: ((k2.data.map escapeChar).flatten ++ '"' :: (':' :: ' ' ::
                      (printVal (lvl + 1) v2 ++
                        printObjTail (lvl + 1) t2 (indentChars lvl) rest))))) := by
              have hx := hdec
              rw [printString] at hx
              simp only [List.append_assoc, List.cons_append, List.nil_append] at hx ⊢
              rw [hx]
            rw [e, skipWs, if_pos (by decide),
                skipWs_ws_append _ _ (indentChars_ws (lvl + 1))]
            exact skipWs_not_ws _ _ (by decide)
          rw [parseVal, h1]
          dsimp only
          rw [if_neg (by decide), if_neg (by decide), if_neg (by decide),
              if_neg (by decide), if_neg (by decide), if_pos rfl, h2]
          dsimp only
          rw [if_neg (by decide)]
          have hr := ihR k2 v2 t2 (lvl + 1) [] (indentChars lvl) rest hk2 hv2 ht2
            (by omega) (by intro c hc; simp at hc) (indentChars_ws lvl)
          rw [List.nil_append] at hr
          rw [show ('"' : Char) :: ((k2.data.map escapeChar).flatten ++ '"' :: (':' :: ' ' ::
              (printVal (lvl + 1) v2 ++ printObjTail (lvl + 1) t2 (indentChars lvl) rest)))
              = printString k2 ++ ':' :: ' ' ::
                  (printVal (lvl + 1) v2 ++
                    printObjTail (lvl + 1) t2 (indentChars lvl) rest) by
                rw [printString]; simp,
              hr]
          rfl
    · -- parseArrItems
      intro v a lvl pre closeWs rest hv ha hsize hpre hclose
      have hp := ihP v lvl pre (printArrTail lvl a closeWs rest) hv
        (by have := sizeA_pos a; omega) hpre (numDelim_printArrTail lvl a closeWs rest)
      rw [parseArrItems, hp]
      dsimp only
      cases a with
      | nil =>
        rw [printArrTail,
            show ('\n' :: closeWs ++ ']' :: rest) = '\n' :: (closeWs ++ ']' :: rest) by simp,
            skipWs, if_pos (by decide), skipWs_ws_append _ _ hclose,
            skipWs_not_ws _ _ (by decide)]
        dsimp only
        rw [if_neg (by decide), if_pos rfl]
      | cons v2 t2 =>
        rw [wfA, Bool.and_eq_true] at ha
        obtain ⟨hv2, ht2⟩ := ha
        rw [sizeA] at hsize
        rw [printArrTail,
            show (',' :: '\n' :: indentChars lvl ++ printVal lvl v2 ++
                printArrTail lvl t2 closeWs rest)
              = ',' :: ('\n' :: indentChars lvl ++ printVal lvl v2 ++
                  printArrTail lvl t2 closeWs rest) by simp,
            skipWs_not_ws _ _ (by decide)]
        dsimp only
        rw [if_pos rfl]
        have hq := ihQ v2 t2 lvl ('\n' :: indentChars lvl) closeWs rest hv2 ht2
          (by have := sizeV_pos v; omega)
          (by
            intro c hc
            rcases List.mem_cons.mp hc with h | h
            · subst h; rfl
            · exact indentChars_ws lvl c h)
          hclose
        rw [show ('\n' :: indentChars lvl ++ printVal lvl v2 ++
            printArrTail lvl t2 closeWs rest)
            = ('\n' :: indentChars lvl) ++
                (printVal lvl v2 ++ printArrTail lvl t2 closeWs rest) by simp,
            hq]
        rfl
    · -- parseObjItems
      intro k v o lvl pre closeWs rest hk hv ho hsize hpre hclose
      have h1 : skipWs (pre ++ (printString k ++ ':' :: ' ' ::
          (printVal lvl v ++ printObjTail lvl o closeWs rest)))
          = '"' :: ((k.data.map escapeChar).flatten ++ '"' :: (':' :: ' ' ::
              (printVal lvl v ++ printObjTail lvl o closeWs rest))) := by
        rw [skipWs_ws_append _ _ hpre, printString,
            show ('"' :: (k.data.map escapeChar).flatten ++ ['"']) ++ ':' :: ' ' ::
                (printVal lvl v ++ printObjTail lvl o closeWs rest)
              = '"' :: ((k.data.map escapeChar).flatten ++ '"' :: (':' :: ' ' ::
                  (printVal lvl v ++ printObjTail lvl o closeWs rest))) by simp]
        exact skipWs_not_ws _ _ (by decide)
      rw [parseObjItems, h1]
      dsimp only
      rw [if_pos rfl, parseStringBody_roundtrip k.data _ (wfStr_forall k hk)]
      dsimp only
      rw [skipWs_not_ws _ _ (by decide)]
      dsimp only
      rw [if_pos rfl]
      have hp := ihP v lvl [' '] (printObjTail lvl o closeWs rest) hv
        (by have := sizeO_pos o; omega)
        (by intro c hc; simp at hc; subst hc; rfl)
        (numDelim_printObjTail lvl o closeWs rest)
      rw [show (' ' :: (printVal lvl v ++ printObjTail lvl o closeWs rest))
          = [' '] ++ (printVal lvl v ++ printObjTail lvl o closeWs rest) by simp,
          hp]
      dsimp only
      cases o with
      | nil =>
        rw [printObjTail,
            show ('\n' :: closeWs ++ rbrace :: rest)
              = '\n' :: (closeWs ++ rbrace :: rest) by simp,
            skipWs, if_pos (by decide), skipWs_ws_append _ _ hclose,
            skipWs_not_ws _ _ (by decide)]
        dsimp only
        rw [if_neg (by decide), if_pos rfl]
      | cons k2 v2 t2 =>
        rw [wfO, Bool.and_eq_true, Bool.and_eq_true] at ho
        obtain ⟨⟨hk2, hv2⟩, ht2⟩ := ho
        rw [sizeO] at hsize
        rw [printObjTail,
            show (',' :: '\n' :: indentChars lvl ++ printString k2 ++ ':' :: ' ' ::
                printVal lvl v2 ++ printObjTail lvl t2 closeWs rest)
              = ',' :: ('\n' :: indentChars lvl ++ printString k2 ++ ':' :: ' ' ::
                  printVal lvl v2 ++ printObjTail lvl t2 closeWs rest) by simp,
            skipWs_not_ws _ _ (by decide)]
        dsimp only
        rw [if_pos rfl]
        have hr := ihR k2 v2 t2 lvl ('\n' :: indentChars lvl) closeWs rest hk2 hv2 ht2
          (by have := sizeV_pos v; omega)
          (by
            intro c hc
            rcases List.mem_cons.mp hc with h | h
            · subst h; rfl
            · exact indentChars_ws lvl c h)
          hclose
        rw [show ('\n' :: indentChars lvl ++ printString k2 ++ ':' :: ' ' ::
            printVal lvl v2 ++ printObjTail lvl t2 closeWs rest)
            = ('\n' :: indentChars lvl) ++ (printString k2 ++ ':' :: ' ' ::
                (printVal lvl v2 ++ printObjTail lvl t2 closeWs rest)) by simp,
            hr]
        rfl

mutual
theorem sizeV_le_print (lvl : Nat) (v : JVal) (hwf : wfV v = true) :
    sizeV v ≤ (printVal lvl v).length := by
  cases v with
  | jnull =>
    rw [sizeV.eq_def, printVal]
    simp
  | jbool b =>
    cases b <;> (rw [sizeV.eq_def, printVal] <;> simp)
  | jnum neg ip frac =>
    rw [sizeV.eq_def, printVal]
    rw [wfV, wfNum, Bool.and_eq_true, wfDigits, Bool.and_eq_true] at hwf
    obtain ⟨⟨hne, _⟩, _⟩ := hwf
    obtain ⟨d, ds, rfl⟩ : ∃ d ds, ip = d :: ds := by
      cases ip with
      | nil => simp at hne
      | cons d ds => exact ⟨d, ds, rfl⟩
    cases neg <;> (rw [printNum] <;> simp <;> omega)
  | jstr s =>
    rw [sizeV.eq_def, printVal, printString]
    simp
  | jarr a =>
    cases a with
    | nil =>
      rw [sizeV, sizeA, printVal]
      simp
    | cons v2 t2 =>
      rw [wfV, wfA, Bool.and_eq_true] at hwf
      have hq := sizeA_le_print (lvl + 1) v2 t2 hwf.1 hwf.2
      rw [sizeV, sizeA, printVal]
      simp only [List.length_cons, List.length_append, List.length_singleton]
      omega
  | jobj o =>
    cases o with
    | nil =>
      rw [sizeV, sizeO, printVal]
      simp
    | cons k2 v2 t2 =>
      rw [wfV, wfO, Bool.and_eq_true, Bool.and_eq_true] at hwf
      have hr := sizeO_le_print (lvl + 1) k2 v2 t2 hwf.1.2 hwf.2
      rw [sizeV, sizeO, printVal]
      simp only [List.length_cons, List.length_append, List.length_singleton]
      omega
termination_by sizeOf v

theorem sizeA_le_print (lvl : Nat) (v : JVal) (a : JArr)
    (hv : wfV v = true) (ha : wfA a = true) :
    sizeV v + sizeA a + 1 ≤ (printArrItems lvl v a).length + 2 := by
  cases a with
  | nil =>
    have hp := sizeV_le_print lvl v hv
    rw [sizeA, printArrItems]
    simp only [List.length_append]
    omega
  | cons v2 t2 =>
    rw [wfA, Bool.and_eq_true] at ha
    have hp := sizeV_le_print lvl v hv
    have hq := sizeA_le_print lvl v2 t2 ha.1 ha.2
    rw [sizeA, printArrItems]
    simp only [List.length_append, List.length_cons]
    omega
termination_by 1 + sizeOf v + sizeOf a

theorem sizeO_le_print (lvl : Nat) (k : String) (v : JVal) (o : JObj)
    (hv : wfV v = true) (ho : wfO o = true) :
    sizeV v + sizeO o + 1 ≤ (printObjItems lvl k v o).length + 2 := by
  cases o with
  | nil =>
    have hp := sizeV_le_print lvl v hv
    rw [sizeO, printObjItems]
    simp only [List.length_append, List.length_cons]
    omega
  | cons k2 v2 t2 =>
    rw [wfO, Bool.and_eq_true, Bool.and_eq_true] at ho
    have hp := sizeV_le_print lvl v hv
    have hr := sizeO_le_print lvl k2 v2 t2 ho.1.2 ho.2
    rw [sizeO, printObjItems]
    simp only [List.length_append, List.length_cons]
    omega
termination_by 1 + sizeOf v + sizeOf o
end

/-- Parsing a dumped well-formed document returns the document. -/
theorem loads_dumps (v : JVal) (h : wfV v = true) : loads (dumps v) = some v := by
  have hdata : (dumps v).data = printVal 0 v := rfl
  have hlen : (dumps v).length = (printVal 0 v).length := rfl
  have hfuel : sizeV v ≤ (dumps v).length + 1 := by
    have := sizeV_le_print 0 v h
    omega
  have hP := (parse_print_roundtrip ((dumps v).length + 1)).1 v 0 [] [] h hfuel
    (by intro c hc; simp at hc) trivial
  rw [List.nil_append, List.append_nil] at hP
  rw [loads, hdata, hP]
  dsimp only
  simp [skipWs]

/-- C4: `load_security_data` returns the parsed document when the file exists
and parses, and the fresh empty document when the file is absent or
malformed; no failure escapes. -/
theorem load_security_data_correct :
    load_security_data none = defaultDoc ∧
    (∀ s, loads s = none → load_security_data (some s) = defaultDoc) ∧
    (∀ s v, loads s = some v → load_security_data (some s) = v) := by
  refine ⟨rfl, ?_, ?_⟩
  · intro s hs
    rw [load_security_data, hs]
  · intro s v hs
    rw [load_security_data, hs]

/-- A truncated JSON document (a lone opening brace) fails to parse. -/
theorem loads_truncated : loads "\x7b" = none := by
  have hdata : ("\x7b" : String).data = [lbrace] := by decide
  have hlen : ("\x7b" : String).length = 1 := by decide
  rw [loads, hlen, hdata, parseVal, skipWs_not_ws _ _ (by decide)]
  dsimp only
  rw [if_neg (by decide), if_neg (by decide), if_neg (by decide), if_neg (by decide),
      if_neg (by decide), if_pos rfl,
      show skipWs ([] : List Char) = [] from rfl]

/-- Witness for C4: loading the truncated file `"\x7b"` yields the fresh
empty document. -/
theorem load_security_data_correct_witness :
    loads "\x7b" = none ∧ load_security_data (some "\x7b") = defaultDoc :=
  ⟨loads_truncated, load_security_data_correct.2.1 "\x7b" loads_truncated⟩

/-- C5: for every document `save` can produce, loading the saved file and
saving the loaded document again writes byte-for-byte identical content. -/
theorem save_load_save (d : JVal) (h : wfV d = true) :
    save_security_data (load_security_data (some (save_security_data d)))
      = save_security_data d := by
  have h1 : load_security_data (some (save_security_data d)) = d := by
    rw [load_security_data, save_security_data, loads_dumps d h]
  rw [h1]

/-- Witness for C5 at the fresh empty document. -/
theorem save_load_save_witness :
    wfV defaultDoc = true ∧
    save_security_data (load_security_data (some (save_security_data defaultDoc)))
      = save_security_data defaultDoc := by
  have hwf : wfV defaultDoc = true := by
    rw [defaultDoc]
    simp only [wfV, wfO, wfA, Bool.and_eq_true]
    refine ⟨⟨by decide, trivial⟩, ⟨by decide, trivial⟩, ⟨by decide, trivial⟩, by decide, trivial⟩
  exact ⟨hwf, save_load_save defaultDoc hwf⟩

end Persist

end Workshop
